import Mathlib

set_option maxHeartbeats 1000000

/-!
Verification of the labirust maze library: a shallow embedding of the maze data
structure (`src/labirust/src/labyrinth.rs`), the recursive-backtracking generator
(`src/src/labyrinth/generator.rs`), the two solving algorithms
(`depth_first.rs`, `breath_first.rs`) and the executor loop (`executor.rs`),
together with proofs about them.

Conventions of the embedding:
* `Pos` is a pair of mathematical integers (the source uses `isize`; the maze
  sizes involved are tiny, so no overflow modelling is needed).
* The `HashMap<Pos, Vec<Pos>>` of open passages is modelled as a partial function
  `Pos → Option (List Pos)`; `none` is an absent key, on which the source panics
  via `.expect("position out of bounds")`.
* Panicking operations return `Except`/`Option`; where the panic can leave the
  receiver mutated, the error value carries the state at the point of the panic.
* The `rand::thread_rng` shuffle of the generator is modelled by an oracle
  `shuffle : Nat → List Pos → List Pos` receiving a fresh index on every call;
  theorems quantify over all oracles that produce permutations.
* Recursive functions that the source runs on well-founded data are given a fuel
  parameter so that they stay structurally recursive and computable; the proofs
  show the chosen fuel is never exhausted on the runs the source performs.
-/

/-- `Pos`: a discrete position on the 2D grid (`position.rs`). -/
abbrev Pos : Type := Int × Int

/-- `Pos::zero`. -/
def Pos.zero : Pos := (0, 0)

/-- `Maze` (`labyrinth.rs`): grid extents, start/end cells and the passage map.
`endp` is the source's `end` field (`end` is a Lean keyword). -/
structure Maze where
  width : Int
  height : Int
  start : Pos
  endp : Pos
  paths : Pos → Option (List Pos)

/-- `Maze::is_inside`: bounds test against the `[0,width) × [0,height)` rectangle. -/
def Maze.is_inside (m : Maze) (p : Pos) : Bool :=
  decide (0 ≤ p.1 ∧ p.1 < m.width ∧ 0 ≤ p.2 ∧ p.2 < m.height)

/-- `Maze::adjascent`: the four orthogonal neighbours of `p`, keeping those inside. -/
def Maze.adjascent (m : Maze) (p : Pos) : List Pos :=
  [(p.1 - 1, p.2), (p.1 + 1, p.2), (p.1, p.2 - 1), (p.1, p.2 + 1)].filter
    (fun q => m.is_inside q)

/-- One `self.paths.get_mut(&k).expect(..).push(v)` statement: push `v` at key `k`,
`none` when the key is absent (the panic case). -/
def mapPush (f : Pos → Option (List Pos)) (k v : Pos) : Option (Pos → Option (List Pos)) :=
  match f k with
  | none => none
  | some l => some (fun q => if q = k then some (l ++ [v]) else f q)

/-- `Maze::create_path`: push `b` into `a`'s list, then `a` into `b`'s list.
The first push happens before the second key is validated, so when the second
lookup panics the error value carries the half-mutated maze. -/
def Maze.create_path (m : Maze) (a b : Pos) : Except Maze Maze :=
  match mapPush m.paths a b with
  | none => .error m
  | some p1 =>
    match mapPush p1 b a with
    | none => .error { m with paths := p1 }
    | some p2 => .ok { m with paths := p2 }

/-- The initial all-walls grid built by the double loop of `Maze::new`: every cell
of the rectangle maps to the empty list, everything else is absent. -/
def initPaths (w h : Int) : Pos → Option (List Pos) :=
  fun p => if 0 ≤ p.1 ∧ p.1 < w ∧ 0 ≤ p.2 ∧ p.2 < h then some [] else none

/-- `Maze::new`: build the all-walls grid, then run `create_path` for every
requested passage, stopping at the first panic (whose state the error carries). -/
def mazeNew (w h : Int) (s e : Pos) (ps : List (Pos × List Pos)) : Except Maze Maze :=
  ps.foldlM (fun m pr => pr.2.foldlM (fun m q => m.create_path pr.1 q) m)
    (⟨w, h, s, e, initPaths w h⟩ : Maze)

/-- `Maze::paths_from`: the passage list of `p`; `none` models the out-of-bounds panic. -/
def Maze.paths_from (m : Maze) (p : Pos) : Option (List Pos) := m.paths p

/-- `Maze::is_end`. -/
def Maze.is_end (m : Maze) (p : Pos) : Bool := decide (m.endp = p)

/-- `Maze::is_start`. -/
def Maze.is_start (m : Maze) (p : Pos) : Bool := decide (m.start = p)

/-- The passage list of `p` read with default `[]` (convenience for specifications;
all lemmas that use it establish that the key is present where it matters). -/
def adjL (m : Maze) (p : Pos) : List Pos := (m.paths p).getD []

/-- The cells of the `w × h` rectangle as a finite set. -/
def rect (w h : Int) : Finset Pos := Finset.Icc 0 (w - 1) ×ˢ Finset.Icc 0 (h - 1)

/-- The passage graph of a maze: `a` and `b` are adjacent when each occurs in the
other's passage list (for the well-formed mazes below the two memberships are
equivalent; the symmetric form makes this a `SimpleGraph` unconditionally). -/
def pG (m : Maze) : SimpleGraph Pos where
  Adj a b := a ≠ b ∧ b ∈ adjL m a ∧ a ∈ adjL m b
  symm := by
    intro a b h
    exact ⟨fun e => h.1 e.symm, h.2.2, h.2.1⟩
  loopless := by
    intro a h
    exact h.1 rfl

/-- Total number of directed passage entries of the rectangle; each undirected
passage is counted twice (once from each endpoint). -/
def edgeSum (m : Maze) : Nat :=
  ∑ p ∈ rect m.width m.height, (adjL m p).length

section BasicLemmas

theorem mem_rect {w h : Int} {p : Pos} :
    p ∈ rect w h ↔ 0 ≤ p.1 ∧ p.1 < w ∧ 0 ≤ p.2 ∧ p.2 < h := by
  simp only [rect, Finset.mem_product, Finset.mem_Icc]
  omega

theorem is_inside_iff {m : Maze} {p : Pos} :
    m.is_inside p = true ↔ p ∈ rect m.width m.height := by
  simp [Maze.is_inside, mem_rect]

theorem card_rect {w h : Int} : (rect w h).card = w.toNat * h.toNat := by
  simp only [rect, Finset.card_product, Int.card_Icc]
  congr 1 <;> omega

theorem mem_adjascent {m : Maze} {p q : Pos} :
    q ∈ m.adjascent p ↔
      (q = (p.1 - 1, p.2) ∨ q = (p.1 + 1, p.2) ∨ q = (p.1, p.2 - 1) ∨ q = (p.1, p.2 + 1)) ∧
        q ∈ rect m.width m.height := by
  simp only [Maze.adjascent, List.mem_filter, List.mem_cons, List.not_mem_nil, or_false,
    is_inside_iff]

theorem adjascent_ne {m : Maze} {p q : Pos} (h : q ∈ m.adjascent p) : q ≠ p := by
  rcases (mem_adjascent.mp h).1 with h' | h' | h' | h' <;>
    (subst h'; intro e; rw [Prod.ext_iff] at e; omega)

theorem adjascent_mem_rect {m : Maze} {p q : Pos} (h : q ∈ m.adjascent p) :
    q ∈ rect m.width m.height := (mem_adjascent.mp h).2

theorem adjascent_symm {m : Maze} {p q : Pos} (hp : p ∈ rect m.width m.height)
    (h : q ∈ m.adjascent p) : p ∈ m.adjascent q := by
  rw [mem_adjascent]
  rcases (mem_adjascent.mp h).1 with h' | h' | h' | h' <;>
    (subst h'; exact ⟨by simp [Prod.ext_iff], hp⟩)

end BasicLemmas

section CreatePath

theorem mapPush_none {f : Pos → Option (List Pos)} {k v : Pos} (h : f k = none) :
    mapPush f k v = none := by
  simp [mapPush, h]

theorem mapPush_some {f : Pos → Option (List Pos)} {k v : Pos} {l : List Pos}
    (h : f k = some l) :
    mapPush f k v = some (fun q => if q = k then some (l ++ [v]) else f q) := by
  simp [mapPush, h]

/-- Exact result of a successful `create_path` between two distinct keys. -/
theorem create_path_ok_of {m : Maze} {a b : Pos} {la lb : List Pos}
    (hab : ¬a = b) (ha : m.paths a = some la) (hb : m.paths b = some lb) :
    m.create_path a b =
      .ok { m with paths := fun q =>
              if q = b then some (lb ++ [a])
              else if q = a then some (la ++ [b]) else m.paths q } := by
  have e1 := mapPush_some (v := b) ha
  have e2 : (fun q => if q = a then some (la ++ [b]) else m.paths q) b = some lb := by
    simp [Ne.symm hab, hb]
  have e3 := mapPush_some (f := fun q => if q = a then some (la ++ [b]) else m.paths q)
    (k := b) (v := a) e2
  simp only [Maze.create_path, e1, e3]

/-- Exact result of a successful self-loop `create_path` (the source pushes twice). -/
theorem create_path_ok_self {m : Maze} {a : Pos} {la : List Pos}
    (ha : m.paths a = some la) :
    m.create_path a a =
      .ok { m with paths := fun q => if q = a then some (la ++ [a] ++ [a]) else m.paths q } := by
  have e1 := mapPush_some (v := a) ha
  have e2 : (fun q => if q = a then some (la ++ [a]) else m.paths q) a = some (la ++ [a]) := by
    simp
  have e3 := mapPush_some (f := fun q => if q = a then some (la ++ [a]) else m.paths q)
    (k := a) (v := a) e2
  simp only [Maze.create_path, e1, e3]
  refine congrArg (fun p => Except.ok { m with paths := p }) (funext fun q => ?_)
  by_cases hqa : q = a <;> simp [hqa]

/-- `create_path` panics on an absent first key with the maze untouched. -/
theorem create_path_error_left {m : Maze} {a b : Pos} (ha : m.paths a = none) :
    m.create_path a b = .error m := by
  simp only [Maze.create_path, mapPush_none ha]

/-- `create_path` panics on an absent second key after the first push already
happened: the error state shows `b` appended to `a`'s list. -/
theorem create_path_error_right {m : Maze} {a b : Pos} {la : List Pos}
    (hab : ¬a = b) (ha : m.paths a = some la) (hb : m.paths b = none) :
    m.create_path a b =
      .error { m with paths := fun q => if q = a then some (la ++ [b]) else m.paths q } := by
  have e1 := mapPush_some (v := b) ha
  have e2 : (fun q => if q = a then some (la ++ [b]) else m.paths q) b = none := by
    simp [Ne.symm hab, hb]
  have e3 := mapPush_none (f := fun q => if q = a then some (la ++ [b]) else m.paths q)
    (k := b) (v := a) e2
  simp only [Maze.create_path, e1, e3]

/-- Membership-level inversion of a successful `create_path`. -/
theorem create_path_ok_inv {m m' : Maze} {a b : Pos}
    (h : m.create_path a b = .ok m') :
    (m.paths a).isSome ∧ (m.paths b).isSome ∧
    m'.width = m.width ∧ m'.height = m.height ∧ m'.start = m.start ∧ m'.endp = m.endp ∧
    (∀ q, (m'.paths q).isSome = (m.paths q).isSome) ∧
    (∀ q, ¬q = a → ¬q = b → m'.paths q = m.paths q) ∧
    (∀ y, y ∈ adjL m' a ↔ y ∈ adjL m a ∨ y = b) ∧
    (∀ y, y ∈ adjL m' b ↔ y ∈ adjL m b ∨ y = a) ∧
    (∀ x y, y ∈ adjL m' x → y ∈ adjL m x ∨ (x = a ∧ y = b) ∨ (x = b ∧ y = a)) := by
  rcases ha : m.paths a with _ | la
  · rw [create_path_error_left ha] at h; cases h
  by_cases hab : a = b
  · subst hab
    rw [create_path_ok_self ha] at h
    cases h
    have hA : ∀ q, adjL { m with paths := fun q =>
                            if q = a then some (la ++ [a] ++ [a]) else m.paths q } q =
        if q = a then la ++ [a] ++ [a] else adjL m q := by
      intro q
      by_cases hqa : q = a <;> simp [adjL, hqa]
    refine ⟨by simp [ha], by simp [ha], rfl, rfl, rfl, rfl, ?_, ?_, ?_, ?_, ?_⟩
    · intro q
      by_cases hqa : q = a <;> simp [hqa, ha]
    · intro q hqa _
      simp [hqa]
    · intro y
      rw [hA]
      simp [adjL, ha]
    · intro y
      rw [hA]
      simp [adjL, ha]
    · intro x y hy
      rw [hA] at hy
      by_cases hxa : x = a
      · rw [if_pos hxa] at hy
        simp only [List.mem_append, List.mem_singleton] at hy
        subst hxa
        simp only [adjL, ha, Option.getD_some]
        tauto
      · rw [if_neg hxa] at hy
        exact Or.inl hy
  · rcases hb : m.paths b with _ | lb
    · rw [create_path_error_right hab ha hb] at h; cases h
    · rw [create_path_ok_of hab ha hb] at h
      cases h
      have hA : ∀ q, adjL { m with paths := fun q =>
                              if q = b then some (lb ++ [a])
                              else if q = a then some (la ++ [b]) else m.paths q } q =
          if q = b then lb ++ [a] else if q = a then la ++ [b] else adjL m q := by
        intro q
        by_cases hqb : q = b <;> by_cases hqa : q = a <;> simp [adjL, hqa, hqb, hab]
      refine ⟨by simp [ha], by simp [hb], rfl, rfl, rfl, rfl, ?_, ?_, ?_, ?_, ?_⟩
      · intro q
        by_cases hqb : q = b <;> by_cases hqa : q = a <;> simp [hqa, hqb, ha, hb, hab]
      · intro q hqa hqb
        simp [hqa, hqb]
      · intro y
        rw [hA]
        simp [hab, adjL, ha]
      · intro y
        rw [hA]
        simp [adjL, hb]
      · intro x y hy
        rw [hA] at hy
        by_cases hxb : x = b
        · rw [if_pos hxb] at hy
          simp only [List.mem_append, List.mem_singleton] at hy
          subst hxb
          simp only [adjL, hb, Option.getD_some]
          tauto
        · rw [if_neg hxb] at hy
          by_cases hxa : x = a
          · rw [if_pos hxa] at hy
            simp only [List.mem_append, List.mem_singleton] at hy
            subst hxa
            simp only [adjL, ha, Option.getD_some]
            tauto
          · rw [if_neg hxa] at hy
            exact Or.inl hy

/-- `create_path` succeeds exactly when both keys are present. -/
theorem create_path_ok_iff {m : Maze} {a b : Pos} :
    (∃ m', m.create_path a b = .ok m') ↔ (m.paths a).isSome ∧ (m.paths b).isSome := by
  constructor
  · rintro ⟨m', h⟩
    exact ⟨(create_path_ok_inv h).1, (create_path_ok_inv h).2.1⟩
  · rintro ⟨ha, hb⟩
    rcases ha' : m.paths a with _ | la
    · rw [ha'] at ha; cases ha
    rcases hb' : m.paths b with _ | lb
    · rw [hb'] at hb; cases hb
    by_cases hab : a = b
    · subst hab
      exact ⟨_, create_path_ok_self ha'⟩
    · exact ⟨_, create_path_ok_of hab ha' hb'⟩

end CreatePath

section Reach

/-- Structural facts preserved by `Maze::new` and `create_path`: every rectangle
cell (and nothing else) has an entry, adjacency is symmetric, and adjacency
entries only mention cells of the rectangle. -/
structure ReachInv (m : Maze) : Prop where
  dom : ∀ p : Pos, (m.paths p).isSome ↔ p ∈ rect m.width m.height
  sym : ∀ a b : Pos, b ∈ adjL m a → a ∈ adjL m b
  inrect : ∀ a b : Pos, b ∈ adjL m a → a ∈ rect m.width m.height ∧ b ∈ rect m.width m.height

/-- Mazes obtainable by a successful `Maze::new` followed by any sequence of
successful `create_path` calls. -/
inductive MazeReach : Maze → Prop
  | new (w h : Int) (s e : Pos) (ps : List (Pos × List Pos)) (m : Maze)
      (hm : mazeNew w h s e ps = .ok m) : MazeReach m
  | step (m m' : Maze) (a b : Pos) (hr : MazeReach m)
      (hs : m.create_path a b = .ok m') : MazeReach m'

theorem adjL_init {w h : Int} {s e : Pos} {p : Pos} :
    adjL ⟨w, h, s, e, initPaths w h⟩ p = [] := by
  simp only [adjL, initPaths]
  by_cases hp : 0 ≤ p.1 ∧ p.1 < w ∧ 0 ≤ p.2 ∧ p.2 < h <;> simp [hp]

theorem reachInv_init {w h : Int} {s e : Pos} :
    ReachInv ⟨w, h, s, e, initPaths w h⟩ := by
  refine ⟨?_, ?_, ?_⟩
  · intro p
    simp only [initPaths, mem_rect]
    by_cases hp : 0 ≤ p.1 ∧ p.1 < w ∧ 0 ≤ p.2 ∧ p.2 < h <;> simp [hp]
  · intro a b hb
    rw [adjL_init] at hb
    cases hb
  · intro a b hb
    rw [adjL_init] at hb
    cases hb

theorem ReachInv.step_create {m m' : Maze} {a b : Pos} (h : ReachInv m)
    (hs : m.create_path a b = .ok m') : ReachInv m' := by
  obtain ⟨hsa, hsb, hw, hh, -, -, hdom, -, hA, hB, hcases⟩ := create_path_ok_inv hs
  have hmono : ∀ x y : Pos, y ∈ adjL m x → y ∈ adjL m' x := by
    intro x y hy
    by_cases hxa : x = a
    · subst hxa; exact (hA y).mpr (Or.inl hy)
    · by_cases hxb : x = b
      · subst hxb; exact (hB y).mpr (Or.inl hy)
      · have := (create_path_ok_inv hs).2.2.2.2.2.2.2.1 x hxa hxb
        simpa [adjL, this] using hy
  have harect : a ∈ rect m.width m.height := (h.dom a).mp hsa
  have hbrect : b ∈ rect m.width m.height := (h.dom b).mp hsb
  refine ⟨?_, ?_, ?_⟩
  · intro p
    rw [hdom p, hw, hh]
    exact h.dom p
  · intro x y hy
    rcases hcases x y hy with hy' | ⟨hx, hy'⟩ | ⟨hx, hy'⟩
    · exact hmono y x (h.sym x y hy')
    · subst hx; subst hy'
      exact (hB x).mpr (Or.inr rfl)
    · subst hx; subst hy'
      exact (hA x).mpr (Or.inr rfl)
  · intro x y hy
    rw [hw, hh]
    rcases hcases x y hy with hy' | ⟨hx, hy'⟩ | ⟨hx, hy'⟩
    · exact h.inrect x y hy'
    · subst hx; subst hy'; exact ⟨harect, hbrect⟩
    · subst hx; subst hy'; exact ⟨hbrect, harect⟩

/-- Generic preservation along an `Except`-valued left fold. -/
theorem foldlM_except_inv {α β : Type} {P : β → Prop} {f : β → α → Except β β}
    (hf : ∀ b a b', P b → f b a = .ok b' → P b') :
    ∀ (l : List α) (b b' : β), P b → l.foldlM f b = .ok b' → P b' := by
  intro l
  induction l with
  | nil =>
    intro b b' hP hfold
    cases hfold
    exact hP
  | cons a l ih =>
    intro b b' hP hfold
    rw [List.foldlM_cons] at hfold
    cases hfa : f b a with
    | error e =>
      rw [hfa] at hfold
      cases hfold
    | ok b1 =>
      rw [hfa] at hfold
      exact ih b1 b' (hf b a b1 hP hfa) hfold

theorem mazeNew_ok_inv {w h : Int} {s e : Pos} {ps : List (Pos × List Pos)} {m : Maze}
    (hm : mazeNew w h s e ps = .ok m) :
    ReachInv m ∧ m.width = w ∧ m.height = h ∧ m.start = s ∧ m.endp = e := by
  refine foldlM_except_inv (P := fun m =>
      ReachInv m ∧ m.width = w ∧ m.height = h ∧ m.start = s ∧ m.endp = e)
    ?_ ps _ m ⟨reachInv_init, rfl, rfl, rfl, rfl⟩ hm
  intro m0 pr m1 hP hfold
  refine foldlM_except_inv (P := fun m =>
      ReachInv m ∧ m.width = w ∧ m.height = h ∧ m.start = s ∧ m.endp = e)
    ?_ pr.2 m0 m1 hP hfold
  intro m2 q m3 hP2 hstep
  obtain ⟨-, -, hw, hh, hst, hen, -, -, -, -, -⟩ := create_path_ok_inv hstep
  exact ⟨hP2.1.step_create hstep, by rw [hw, hP2.2.1], by rw [hh, hP2.2.2.1],
    by rw [hst, hP2.2.2.2.1], by rw [hen, hP2.2.2.2.2]⟩

theorem mazeReach_inv {m : Maze} (h : MazeReach m) : ReachInv m := by
  induction h with
  | new w h s e ps m hm => exact (mazeNew_ok_inv hm).1
  | step m m' a b hr hs ih => exact ih.step_create hs

end Reach

section NewOkIff

/-- Domain/dimension bookkeeping used while folding `create_path` over the
requested passages of `Maze::new`. -/
def DomDims (w h : Int) (m : Maze) : Prop :=
  m.width = w ∧ m.height = h ∧ ∀ p : Pos, ((m.paths p).isSome ↔ p ∈ rect w h)

theorem DomDims.step_dom {w h : Int} {m m' : Maze} {a b : Pos} (hP : DomDims w h m)
    (hs : m.create_path a b = .ok m') : DomDims w h m' := by
  obtain ⟨-, -, hw, hh, -, -, hdom, -, -, -, -⟩ := create_path_ok_inv hs
  exact ⟨by rw [hw, hP.1], by rw [hh, hP.2.1], fun p => by rw [hdom p]; exact hP.2.2 p⟩

theorem innerFold_ok_iff {w h : Int} (p : Pos) :
    ∀ (l : List Pos) (m : Maze), DomDims w h m →
      ((∃ m', l.foldlM (fun m q => m.create_path p q) m = .ok m') ↔
        ∀ q ∈ l, p ∈ rect w h ∧ q ∈ rect w h) := by
  intro l
  induction l with
  | nil =>
    intro m hP
    simp only [List.foldlM_nil, List.not_mem_nil, false_implies, implies_true, iff_true]
    exact ⟨m, rfl⟩
  | cons q l ih =>
    intro m hP
    rw [List.foldlM_cons]
    by_cases hok : (m.paths p).isSome ∧ (m.paths q).isSome
    · obtain ⟨m1, e1⟩ := create_path_ok_iff.mpr hok
      rw [e1]
      have hrect : p ∈ rect w h ∧ q ∈ rect w h :=
        ⟨(hP.2.2 p).mp hok.1, (hP.2.2 q).mp hok.2⟩
      have := ih m1 (hP.step_dom e1)
      constructor
      · rintro ⟨m', hm'⟩ q' hq'
        rcases List.mem_cons.mp hq' with hq' | hq'
        · subst hq'; exact hrect
        · exact (this.mp ⟨m', hm'⟩) q' hq'
      · intro hall
        obtain ⟨m', hm'⟩ := this.mpr (fun q' hq' => hall q' (List.mem_cons_of_mem _ hq'))
        exact ⟨m', hm'⟩
    · have herr : ∃ me, m.create_path p q = .error me := by
        rcases hpp : m.paths p with _ | la
        · exact ⟨m, create_path_error_left hpp⟩
        · rcases hqq : m.paths q with _ | lb
          · have hpq : ¬p = q := by
              intro e
              rw [e, hqq] at hpp
              cases hpp
            exact ⟨_, create_path_error_right hpq hpp hqq⟩
          · exact absurd ⟨by simp [hpp], by simp [hqq]⟩ hok
      obtain ⟨me, he⟩ := herr
      rw [he]
      constructor
      · rintro ⟨m', hm'⟩
        cases hm'
      · intro hall
        have := hall q (List.mem_cons_self q l)
        exact absurd ⟨(hP.2.2 p).mpr this.1, (hP.2.2 q).mpr this.2⟩ hok

theorem mazeNew_ok_iff {w h : Int} {s e : Pos} {ps : List (Pos × List Pos)} :
    (∃ m, mazeNew w h s e ps = .ok m) ↔
      ∀ pr ∈ ps, ∀ q ∈ pr.2, pr.1 ∈ rect w h ∧ q ∈ rect w h := by
  have hinit : DomDims w h ⟨w, h, s, e, initPaths w h⟩ := by
    refine ⟨rfl, rfl, fun p => ?_⟩
    simp only [initPaths, mem_rect]
    by_cases hp : 0 ≤ p.1 ∧ p.1 < w ∧ 0 ≤ p.2 ∧ p.2 < h <;> simp [hp]
  rw [mazeNew]
  generalize hm0 : (⟨w, h, s, e, initPaths w h⟩ : Maze) = m0
  rw [hm0] at hinit
  clear hm0
  induction ps generalizing m0 with
  | nil =>
    simp only [List.foldlM_nil, List.not_mem_nil, false_implies, implies_true, iff_true]
    exact ⟨m0, rfl⟩
  | cons pr ps ih =>
    rw [List.foldlM_cons]
    by_cases hok : ∀ q ∈ pr.2, pr.1 ∈ rect w h ∧ q ∈ rect w h
    · obtain ⟨m1, e1⟩ := (innerFold_ok_iff pr.1 pr.2 m0 hinit).mpr hok
      rw [e1]
      have hP1 : DomDims w h m1 :=
        foldlM_except_inv (P := DomDims w h) (fun b a b' hP hf => hP.step_dom hf)
          pr.2 m0 m1 hinit e1
      have := ih m1 hP1
      constructor
      · rintro ⟨m', hm'⟩ pr' hpr'
        rcases List.mem_cons.mp hpr' with hpr' | hpr'
        · subst hpr'; exact hok
        · exact (this.mp ⟨m', hm'⟩) pr' hpr'
      · intro hall
        exact this.mpr (fun pr' hpr' => hall pr' (List.mem_cons_of_mem _ hpr'))
    · have herr : ∃ me, pr.2.foldlM (fun m q => m.create_path pr.1 q) m0 = .error me := by
        rcases hres : pr.2.foldlM (fun m q => m.create_path pr.1 q) m0 with me | m1
        · exact ⟨me, hres⟩
        · exact absurd ((innerFold_ok_iff pr.1 pr.2 m0 hinit).mp ⟨m1, hres⟩) hok
      obtain ⟨me, he⟩ := herr
      rw [he]
      constructor
      · rintro ⟨m', hm'⟩
        cases hm'
      · intro hall
        exact absurd (hall pr (List.mem_cons_self pr ps)) hok

end NewOkIff

/-! Algorithms (`depth_first.rs`, `breath_first.rs`), the per-step `Context`, and
the executor loop (`executor.rs`).

An algorithm is embedded as its retained state plus a `progress` function from
state, insight position and insight paths to `Option (state × guess)`; `none`
models the `expect("no more options")` panic. The executor trace collects every
returned guess. -/

/-- The per-step `Context`: a read-only view of the maze. -/
structure Context where
  maze : Maze

/-- `Context::guess`: wraps a path into a `Guess` (a bare list here). -/
def Context.guess (_ : Context) (pos : List Pos) : List Pos := pos

/-- `Context::start`. -/
def Context.start (c : Context) : Pos := c.maze.start

/-- `Context::end`. -/
def Context.endp (c : Context) : Pos := c.maze.endp

/-- `Context::width`. -/
def Context.width (c : Context) : Int := c.maze.width

/-- `Context::height` — the source body returns `self.maze.width()` (in both
snapshots of `executor.rs`), which this embedding reproduces verbatim. -/
def Context.height (c : Context) : Int := c.maze.width

/-- `Context::size`. -/
def Context.size (c : Context) : Int × Int := (c.maze.width, c.maze.height)

/-- A stack frame of `DepthFirst`: a position and its yet-untried branches.
The Rust `Vec` pops from its back; `remaining_branches` is kept reversed so that
the next branch to try is the head. -/
structure Frame where
  position : Pos
  remaining_branches : List Pos

/-- `DepthFirst`: visited set and stack of frames (head = top of the Rust `Vec`). -/
structure DepthFirst where
  visited : Finset Pos
  stack : List Frame

/-- `DepthFirst::new`. -/
def DepthFirst.new : DepthFirst := ⟨∅, []⟩

/-- The branch-popping inner iterations of `DepthFirst::progress` on one frame:
pop branches until one is unvisited (returning it and the remaining branches) or
the frame is exhausted. -/
def scanBranches (visited : Finset Pos) : List Pos → Option (Pos × List Pos)
  | [] => none
  | b :: bs => if b ∈ visited then scanBranches visited bs else some (b, bs)

/-- The `loop` of `DepthFirst::progress`: examine the top frame; an exhausted
frame is popped (backtracking), otherwise the first unvisited branch yields the
new stack and the guess path (stack positions bottom-to-top plus the branch).
`none` is the `expect("no more options")` panic on an empty stack. -/
def dfLoop (visited : Finset Pos) : List Frame → Option (List Frame × List Pos)
  | [] => none
  | f :: rest =>
    match scanBranches visited f.remaining_branches with
    | some (b, bs) =>
      some ((⟨f.position, bs⟩ : Frame) :: rest,
        ((⟨f.position, bs⟩ : Frame) :: rest).reverse.map Frame.position ++ [b])
    | none => dfLoop visited rest

/-- `DepthFirst::progress`: mark the position visited, push a frame seeded with
the insight paths (reversed: the source pops from the back), then run the loop. -/
def DepthFirst.progress (st : DepthFirst) (position : Pos) (paths : List Pos) :
    Option (DepthFirst × List Pos) :=
  let visited' := insert position st.visited
  let stack' := (⟨position, paths.reverse⟩ : Frame) :: st.stack
  match dfLoop visited' stack' with
  | none => none
  | some (stack2, path) => some (⟨visited', stack2⟩, path)

/-- `BreathFirst`: FIFO queue of candidate paths (head = front), visited set,
and the most recently returned path. -/
structure BreathFirst where
  paths : List (List Pos)
  visited : Finset Pos
  last_path : List Pos

/-- `BreathFirst::new`. -/
def BreathFirst.new : BreathFirst := ⟨[], ∅, []⟩

/-- `BreathFirst::progress`: mark the position visited, enqueue the last returned
path extended by each unvisited branch (in insight order), then pop the front of
the queue; `none` is the `expect("no more options")` panic on an empty queue. -/
def BreathFirst.progress (st : BreathFirst) (position : Pos) (paths : List Pos) :
    Option (BreathFirst × List Pos) :=
  let visited' := insert position st.visited
  let path := st.last_path
  let queue := st.paths ++
    (paths.filter (fun b => decide (b ∉ visited'))).map (fun b => path ++ [b])
  match queue with
  | [] => none
  | p :: rest => some (⟨rest, visited', p⟩, p)

/-- Outcome of an `Executor::run`, carrying the trace of returned guesses:
normal termination at the end cell, the three panics the loop can hit
(`paths_from` out of bounds, algorithm `progress` exhausted, empty guess), or
exhaustion of the step budget. -/
inductive RunResult where
  | done (guesses : List (List Pos))
  | failInsight (guesses : List (List Pos))
  | failProgress (guesses : List (List Pos))
  | failEmptyGuess (guesses : List (List Pos))
  | outOfFuel (guesses : List (List Pos))
deriving DecidableEq

/-- The guess trace of a run outcome. -/
def RunResult.guesses : RunResult → List (List Pos)
  | .done gs => gs
  | .failInsight gs => gs
  | .failProgress gs => gs
  | .failEmptyGuess gs => gs
  | .outOfFuel gs => gs

/-- The `loop` of `Executor::run`: build the insight (`paths_from` may panic),
call `progress` (may panic), take the guess tail (`expect("returned an empty
path")`), stop when the tail is the end cell, else continue from the tail. -/
def runLoop {σ : Type} (prog : σ → Pos → List Pos → Option (σ × List Pos)) (m : Maze) :
    Nat → σ → Pos → List (List Pos) → RunResult
  | 0, _, _, acc => .outOfFuel acc
  | fuel + 1, s, pos, acc =>
    match m.paths_from pos with
    | none => .failInsight acc
    | some ps =>
      match prog s pos ps with
      | none => .failProgress acc
      | some (s', g) =>
        match g.getLast? with
        | none => .failEmptyGuess (acc ++ [g])
        | some tail =>
          if m.is_end tail then .done (acc ++ [g])
          else runLoop prog m fuel s' tail (acc ++ [g])

/-- `Executor::run`: drive the loop from the maze start. -/
def Executor.run {σ : Type} (prog : σ → Pos → List Pos → Option (σ × List Pos)) (m : Maze)
    (s : σ) (fuel : Nat) : RunResult :=
  runLoop prog m fuel s m.start []

/-! The generator (`SimpleGenerator::generate`). -/

/-- Generator state: the maze being carved, the visited set, and a counter
indexing calls to the shuffle oracle. -/
structure GenSt where
  maze : Maze
  visited : Finset Pos
  ctr : Nat

/-- The recursive carving function `recursive` of `SimpleGenerator::generate`:
mark the current cell visited, shuffle its in-bounds neighbours, and for each
neighbour still unvisited when reached, carve a passage to it and recurse.
`fuel` bounds the recursion depth (the generator passes one more than the cell
count, which the proofs show is never exhausted); a carving failure (impossible
on generator runs, as proved below) stops with the error state. -/
def carve (shuffle : Nat → List Pos → List Pos) : Nat → Pos → GenSt → GenSt
  | 0, _, st => st
  | fuel + 1, current, st =>
    let st1 : GenSt := ⟨st.maze, insert current st.visited, st.ctr + 1⟩
    let ns := shuffle st.ctr (st.maze.adjascent current)
    ns.foldl
      (fun acc n =>
        if n ∈ acc.visited then acc
        else
          match acc.maze.create_path current n with
          | .error m' => ⟨m', acc.visited, acc.ctr⟩
          | .ok m' => carve shuffle fuel n ⟨m', acc.visited, acc.ctr⟩)
      st1

/-- `SimpleGenerator::generate`: an all-walls maze with start `(0,0)` and end
`(width-1, height-1)`, carved by the recursion from `(0,0)`. -/
def SimpleGenerator.generate (w h : Int) (shuffle : Nat → List Pos → List Pos) : Maze :=
  match mazeNew w h (0, 0) (w - 1, h - 1) [] with
  | .error m => m
  | .ok m0 => (carve shuffle (w.toNat * h.toNat + 1) Pos.zero ⟨m0, ∅, 0⟩).maze

/-- The identity shuffle oracle (one admissible sequence of random choices). -/
def idShuffle : Nat → List Pos → List Pos := fun _ l => l

/-- Unwraps construction results for the concrete mazes used in examples (their
construction is separately proved successful). -/
def orPanic : Except Maze Maze → Maze
  | .ok m => m
  | .error m => m

/-- The 3×3 maze of the repository's `display` test and of the concrete
depth-first scenario. -/
def maze3x3 : Maze := orPanic (mazeNew 3 3 (0, 0) (2, 2)
  [((0, 0), [(1, 0), (0, 1)]), ((1, 0), [(1, 1)]), ((1, 1), [(1, 2)]), ((1, 2), [(2, 2)])])

/-- A 2×1 maze with the single possible passage. -/
def maze2x1 : Maze := orPanic (mazeNew 2 1 (0, 0) (1, 0) [((0, 0), [(1, 0)])])

/-- The generated 1×1 maze. -/
def maze1x1 : Maze := SimpleGenerator.generate 1 1 idShuffle

/-- A 2×3 maze with no passages (used to exhibit the `Context::height` slip). -/
def maze2x3 : Maze := orPanic (mazeNew 2 3 (0, 0) (1, 2) [])

example : maze1x1.start = (0, 0) ∧ maze1x1.endp = (0, 0) := by decide

example : Executor.run DepthFirst.progress maze3x3 DepthFirst.new 10 =
    .done [[(0, 0), (0, 1)], [(0, 0), (1, 0)], [(0, 0), (1, 0), (1, 1)],
      [(0, 0), (1, 0), (1, 1), (1, 2)], [(0, 0), (1, 0), (1, 1), (1, 2), (2, 2)]] := by
  decide

section Fields

theorem create_path_error_inv {m m' : Maze} {a b : Pos}
    (h : m.create_path a b = .error m') :
    m'.width = m.width ∧ m'.height = m.height ∧ m'.start = m.start ∧ m'.endp = m.endp := by
  unfold Maze.create_path at h
  cases h1 : mapPush m.paths a b with
  | none =>
    simp only [h1] at h
    cases h
    exact ⟨rfl, rfl, rfl, rfl⟩
  | some p1 =>
    simp only [h1] at h
    cases h2 : mapPush p1 b a with
    | none =>
      simp only [h2] at h
      cases h
      exact ⟨rfl, rfl, rfl, rfl⟩
    | some p2 =>
      simp only [h2] at h
      cases h

theorem foldl_inv {α β : Type} {P : β → Prop} {f : β → α → β}
    (hf : ∀ b a, P b → P (f b a)) : ∀ (l : List α) (b : β), P b → P (l.foldl f b) := by
  intro l
  induction l with
  | nil => intro b hb; exact hb
  | cons a l ih =>
    intro b hb
    rw [List.foldl_cons]
    exact ih _ (hf b a hb)

theorem carve_maze_fields (shuffle : Nat → List Pos → List Pos) :
    ∀ (fuel : Nat) (c : Pos) (st : GenSt),
      (carve shuffle fuel c st).maze.width = st.maze.width ∧
      (carve shuffle fuel c st).maze.height = st.maze.height ∧
      (carve shuffle fuel c st).maze.start = st.maze.start ∧
      (carve shuffle fuel c st).maze.endp = st.maze.endp := by
  intro fuel
  induction fuel with
  | zero => intro c st; exact ⟨rfl, rfl, rfl, rfl⟩
  | succ fuel ih =>
    intro c st
    rw [carve]
    refine foldl_inv (P := fun stx : GenSt =>
        stx.maze.width = st.maze.width ∧ stx.maze.height = st.maze.height ∧
        stx.maze.start = st.maze.start ∧ stx.maze.endp = st.maze.endp)
      ?_ _ _ ⟨rfl, rfl, rfl, rfl⟩
    intro acc n hacc
    by_cases hmem : n ∈ acc.visited
    · simpa [hmem] using hacc
    · simp only [hmem, if_false]
      cases hcp : acc.maze.create_path c n with
      | error m' =>
        obtain ⟨e1, e2, e3, e4⟩ := create_path_error_inv hcp
        exact ⟨by rw [e1, hacc.1], by rw [e2, hacc.2.1], by rw [e3, hacc.2.2.1],
          by rw [e4, hacc.2.2.2]⟩
      | ok m' =>
        obtain ⟨-, -, e1, e2, e3, e4, -, -, -, -, -⟩ := create_path_ok_inv hcp
        obtain ⟨f1, f2, f3, f4⟩ := ih n ⟨m', acc.visited, acc.ctr⟩
        exact ⟨by rw [f1]; rw [show (⟨m', acc.visited, acc.ctr⟩ : GenSt).maze = m' from rfl,
            e1, hacc.1],
          by rw [f2]; rw [show (⟨m', acc.visited, acc.ctr⟩ : GenSt).maze = m' from rfl,
            e2, hacc.2.1],
          by rw [f3]; rw [show (⟨m', acc.visited, acc.ctr⟩ : GenSt).maze = m' from rfl,
            e3, hacc.2.2.1],
          by rw [f4]; rw [show (⟨m', acc.visited, acc.ctr⟩ : GenSt).maze = m' from rfl,
            e4, hacc.2.2.2]⟩

theorem mazeNew_nil {w h : Int} {s e : Pos} :
    mazeNew w h s e [] = .ok (⟨w, h, s, e, initPaths w h⟩ : Maze) := rfl

theorem generate_fields {w h : Int} (shuffle : Nat → List Pos → List Pos) :
    (SimpleGenerator.generate w h shuffle).width = w ∧
    (SimpleGenerator.generate w h shuffle).height = h ∧
    (SimpleGenerator.generate w h shuffle).start = (0, 0) ∧
    (SimpleGenerator.generate w h shuffle).endp = (w - 1, h - 1) := by
  have e := carve_maze_fields shuffle (w.toNat * h.toNat + 1) Pos.zero
    ⟨⟨w, h, (0, 0), (w - 1, h - 1), initPaths w h⟩, ∅, 0⟩
  simpa [SimpleGenerator.generate, mazeNew_nil] using e

end Fields

/-- C3 — Maze adjacency symmetry: on every maze obtained by `Maze::new` or any
sequence of successful `create_path` calls, and for in-bounds cells `A`, `B`,
`B` is in `paths_from(A)` if and only if `A` is in `paths_from(B)`. -/
theorem C3_adjacency_symmetry (m : Maze) (hr : MazeReach m) (A B : Pos)
    (hA : A ∈ rect m.width m.height) (hB : B ∈ rect m.width m.height)
    (la lb : List Pos) (ha : m.paths_from A = some la) (hb : m.paths_from B = some lb) :
    B ∈ la ↔ A ∈ lb := by
  have hinv := mazeReach_inv hr
  have ea : adjL m A = la := by
    have h' : m.paths A = some la := ha
    simp [adjL, h']
  have eb : adjL m B = lb := by
    have h' : m.paths B = some lb := hb
    simp [adjL, h']
  constructor
  · intro h
    rw [← eb]
    exact hinv.sym A B (by rw [ea]; exact h)
  · intro h
    rw [← ea]
    exact hinv.sym B A (by rw [eb]; exact h)

/-- C3 witness: the symmetry instance on the concrete 2×1 maze. -/
theorem C3_adjacency_symmetry_witness :
    (((1, 0) : Pos) ∈ [((1, 0) : Pos)] ↔ ((0, 0) : Pos) ∈ [((0, 0) : Pos)]) :=
  C3_adjacency_symmetry maze2x1
    (MazeReach.new 2 1 (0, 0) (1, 0) [((0, 0), [(1, 0)])] maze2x1 rfl)
    (0, 0) (1, 0) (by decide) (by decide) [(1, 0)] [(0, 0)] rfl rfl

/-- C6 — the per-step `Context` does not expose the maze height: `Context::height`
returns `self.maze.width()` (contradicting its own doc comment), so on the 2×3
maze it returns 2 while `Maze::height` returns 3. -/
theorem C6_context_height_is_width :
    (∀ m : Maze, Context.height ⟨m⟩ = m.width) ∧
    Context.height ⟨maze2x3⟩ = 2 ∧ maze2x3.height = 3 ∧
    Context.height ⟨maze2x3⟩ ≠ maze2x3.height := by
  refine ⟨fun m => rfl, by decide, by decide, by decide⟩

/-- C7 — calling `create_path(a, b)` with `a` in bounds and `b` out of bounds on a
constructed maze fails, and the state at the point of failure already has `b`
appended to `a`'s adjacency list (which did not contain `b` before). -/
theorem C7_partial_mutation_on_error (m : Maze) (hr : MazeReach m) (a b : Pos)
    (ha : a ∈ rect m.width m.height) (hb : b ∉ rect m.width m.height) :
    ∃ m', m.create_path a b = .error m' ∧ b ∈ adjL m' a ∧ b ∉ adjL m a := by
  have hinv := mazeReach_inv hr
  have hsa : (m.paths a).isSome := (hinv.dom a).mpr ha
  rcases hpa : m.paths a with _ | la
  · rw [hpa] at hsa; cases hsa
  have hpb : m.paths b = none := by
    rcases hpb' : m.paths b with _ | lb
    · rfl
    · exact absurd ((hinv.dom b).mp (by simp [hpb'])) hb
  have hab : ¬a = b := fun e => hb (e ▸ ha)
  refine ⟨_, create_path_error_right hab hpa hpb, ?_, ?_⟩
  · simp [adjL]
  · intro hmem
    exact hb (hinv.inrect a b hmem).2

/-- C7 witness: the partial mutation on the concrete 2×1 maze with `b = (5,5)`. -/
theorem C7_partial_mutation_witness :
    ∃ m', maze2x1.create_path (0, 0) (5, 5) = .error m' ∧
      (5, 5) ∈ adjL m' (0, 0) ∧ (5, 5) ∉ adjL maze2x1 (0, 0) :=
  C7_partial_mutation_on_error maze2x1
    (MazeReach.new 2 1 (0, 0) (1, 0) [((0, 0), [(1, 0)])] maze2x1 rfl)
    (0, 0) (5, 5) (by decide) (by decide)

/-- C8 — `Maze::new` succeeds exactly when every requested passage has both
endpoints inside the rectangle (a panic otherwise), and on constructed mazes
`paths_from(p)` succeeds exactly when `p` is inside the rectangle. -/
theorem C8_out_of_bounds_failures :
    (∀ (w h : Int) (s e : Pos) (ps : List (Pos × List Pos)),
      ((∃ m, mazeNew w h s e ps = .ok m) ↔
        ∀ pr ∈ ps, ∀ q ∈ pr.2, pr.1 ∈ rect w h ∧ q ∈ rect w h)) ∧
    (∀ m, MazeReach m → ∀ p : Pos,
      ((∃ l, m.paths_from p = some l) ↔ p ∈ rect m.width m.height)) := by
  refine ⟨fun w h s e ps => mazeNew_ok_iff, fun m hr p => ?_⟩
  have hdom := (mazeReach_inv hr).dom p
  rw [← hdom]
  constructor
  · rintro ⟨l, hl⟩
    have hl' : m.paths p = some l := hl
    simp [hl']
  · intro hs
    rcases hp : m.paths p with _ | l
    · rw [hp] at hs; cases hs
    · exact ⟨l, hp⟩

/-- C8 witness: a concrete in-bounds construction succeeds. -/
theorem C8_out_of_bounds_failures_witness :
    ∃ m, mazeNew 2 1 (0, 0) (1, 0) [((0, 0), [(1, 0)])] = .ok m :=
  (C8_out_of_bounds_failures.1 2 1 (0, 0) (1, 0) [((0, 0), [(1, 0)])]).mpr (by decide)

/-- C9 counterexample — `Maze::new` performs no bounds check on `start`: the 2×2
maze constructed with start `(5,5)` is accepted, violating invariant (c). -/
theorem C9_new_accepts_oob_start :
    ∃ m, mazeNew 2 2 (5, 5) (0, 0) [] = .ok m ∧ m.start ∉ rect m.width m.height :=
  ⟨_, rfl, by decide⟩

/-- C9 amended — `Maze::new` stores `start` and `end` verbatim without validating
them, so invariant (c) holds only when the caller passes in-bounds cells; in
particular every generator-produced maze has in-bounds start `(0,0)` and end
`(w-1, h-1)` for `w, h ≥ 1`. -/
theorem C9_start_end_verbatim :
    (∀ (w h : Int) (s e : Pos) (ps : List (Pos × List Pos)) (m : Maze),
      mazeNew w h s e ps = .ok m → m.start = s ∧ m.endp = e) ∧
    (∀ (w h : Int) (shuffle : Nat → List Pos → List Pos), 1 ≤ w → 1 ≤ h →
      (SimpleGenerator.generate w h shuffle).start ∈
        rect (SimpleGenerator.generate w h shuffle).width
          (SimpleGenerator.generate w h shuffle).height ∧
      (SimpleGenerator.generate w h shuffle).endp ∈
        rect (SimpleGenerator.generate w h shuffle).width
          (SimpleGenerator.generate w h shuffle).height) := by
  constructor
  · intro w h s e ps m hm
    exact ⟨(mazeNew_ok_inv hm).2.2.2.1, (mazeNew_ok_inv hm).2.2.2.2⟩
  · intro w h shuffle hw hh
    obtain ⟨e1, e2, e3, e4⟩ := generate_fields (w := w) (h := h) shuffle
    rw [e1, e2, e3, e4]
    constructor
    · rw [mem_rect]
      constructor
      · exact le_refl 0
      · exact ⟨by omega, le_refl 0, by omega⟩
    · rw [mem_rect]
      exact ⟨by omega, by omega, by omega, by omega⟩

/-- C9 amended witness: the generator clause at the concrete 2×2 instance. -/
theorem C9_start_end_verbatim_witness :
    (SimpleGenerator.generate 2 2 idShuffle).start ∈
      rect (SimpleGenerator.generate 2 2 idShuffle).width
        (SimpleGenerator.generate 2 2 idShuffle).height ∧
    (SimpleGenerator.generate 2 2 idShuffle).endp ∈
      rect (SimpleGenerator.generate 2 2 idShuffle).width
        (SimpleGenerator.generate 2 2 idShuffle).height :=
  C9_start_end_verbatim.2 2 2 idShuffle (by decide) (by decide)

/-- C10 — on the 3×3 maze with passages (0,0)-(1,0), (0,0)-(0,1), (1,0)-(1,1),
(1,1)-(1,2), (1,2)-(2,2), start (0,0), end (2,2), the executor running
`DepthFirst` terminates after exactly 5 `progress` calls and the 5th guess ends
at (2,2). -/
theorem C10_depth_first_five_steps :
    Executor.run DepthFirst.progress maze3x3 DepthFirst.new 10 =
      .done [[(0, 0), (0, 1)], [(0, 0), (1, 0)], [(0, 0), (1, 0), (1, 1)],
        [(0, 0), (1, 0), (1, 1), (1, 2)], [(0, 0), (1, 0), (1, 1), (1, 2), (2, 2)]] ∧
    (Executor.run DepthFirst.progress maze3x3 DepthFirst.new 10).guesses.length = 5 ∧
    ((Executor.run DepthFirst.progress maze3x3 DepthFirst.new 10).guesses.getLast?.bind
      List.getLast? = some (2, 2)) ∧
    maze3x3.endp = (2, 2) := by
  decide

/-- C5 counterexample — on the generated 1×1 maze the executor does not terminate
on the first insight without calling `progress`: its very first loop iteration
calls `progress` (which panics with no viable branch, for either algorithm), and
no step budget ever makes the run reach the DONE state. -/
theorem C5_first_iteration_calls_progress :
    Executor.run DepthFirst.progress maze1x1 DepthFirst.new 1 = .failProgress [] ∧
    Executor.run BreathFirst.progress maze1x1 BreathFirst.new 1 = .failProgress [] ∧
    ¬(∃ fuel gs, Executor.run DepthFirst.progress maze1x1 DepthFirst.new fuel = .done gs) := by
  refine ⟨by decide, by decide, ?_⟩
  rintro ⟨fuel, gs, h⟩
  cases fuel with
  | zero => exact RunResult.noConfusion h
  | succ fuel =>
    have e : Executor.run DepthFirst.progress maze1x1 DepthFirst.new (fuel + 1) =
        .failProgress [] := rfl
    rw [e] at h
    cases h

/-- C5 amended — generating a 1×1 maze yields start = end with zero passages, but
the executor checks the end cell only after a `progress` call: on the first
insight it calls `progress`, which fails (no viable branch) for both algorithms,
so the run aborts instead of terminating cleanly. -/
theorem C5_one_by_one_run (fuel : Nat) :
    maze1x1.start = maze1x1.endp ∧ edgeSum maze1x1 = 0 ∧
    Executor.run DepthFirst.progress maze1x1 DepthFirst.new (fuel + 1) = .failProgress [] ∧
    Executor.run BreathFirst.progress maze1x1 BreathFirst.new (fuel + 1) = .failProgress [] :=
  ⟨by decide, by decide, rfl, rfl⟩

/-- C4 counterexample — a `BreathFirst` guess does not begin at the maze start:
on the 2×1 maze the first (and only) guess of the executor-driven run is
`[(1,0)]`, whose first element differs from the start `(0,0)`. -/
theorem C4_breath_first_guess_skips_start :
    Executor.run BreathFirst.progress maze2x1 BreathFirst.new 5 = .done [[(1, 0)]] ∧
    ([(1, 0)] : List Pos).head? = some (1, 0) ∧
    maze2x1.start = (0, 0) ∧ ((1, 0) : Pos) ≠ ((0, 0) : Pos) := by
  decide

section GraphLemmas

/-- One orthogonal grid step between two cells. -/
def gridStep (c n : Pos) : Prop :=
  n = (c.1 - 1, c.2) ∨ n = (c.1 + 1, c.2) ∨ n = (c.1, c.2 - 1) ∨ n = (c.1, c.2 + 1)

theorem mem_adjascent_iff {m : Maze} {p q : Pos} :
    q ∈ m.adjascent p ↔ gridStep p q ∧ q ∈ rect m.width m.height := mem_adjascent

theorem gridStep_symm {c n : Pos} (h : gridStep c n) : gridStep n c := by
  rcases h with h' | h' | h' | h' <;> (subst h'; simp [gridStep, Prod.ext_iff])

theorem adjascent_dims {m m' : Maze} (hw : m.width = m'.width) (hh : m.height = m'.height)
    (p : Pos) : m.adjascent p = m'.adjascent p := by
  simp [Maze.adjascent, Maze.is_inside, hw, hh]

theorem isAcyclic_of_not_adj {G : SimpleGraph Pos} (h : ∀ a b, ¬G.Adj a b) :
    G.IsAcyclic := by
  intro v c hc
  cases c with
  | nil => exact hc.ne_nil rfl
  | cons hadj p => exact h _ _ hadj

theorem walk_exists_edge_into {G : SimpleGraph Pos} {u v : Pos} (p : G.Walk u v)
    (huv : ¬u = v) : ∃ y, s(y, v) ∈ p.edges := by
  induction p with
  | nil => exact absurd rfl huv
  | @cons a b c hadj q ih =>
    by_cases hbc : b = c
    · subst hbc
      exact ⟨a, by rw [SimpleGraph.Walk.edges_cons]; exact List.mem_cons_self _ _⟩
    · obtain ⟨z, hz⟩ := ih hbc
      exact ⟨z, by rw [SimpleGraph.Walk.edges_cons]; exact List.mem_cons_of_mem _ hz⟩

/-- Adding a single edge to an isolated vertex preserves acyclicity. -/
theorem isAcyclic_add_pendant {G G' : SimpleGraph Pos} {u v : Pos}
    (huv : u ≠ v) (hiso : ∀ w, ¬G.Adj v w)
    (hadj : ∀ a b, G'.Adj a b ↔ G.Adj a b ∨ (a = u ∧ b = v) ∨ (a = v ∧ b = u))
    (hac : G.IsAcyclic) : G'.IsAcyclic := by
  intro a c hc
  by_cases hv : v ∈ c.support
  · cases hrot : c.rotate hv with
    | nil =>
      have hc' := hc.rotate hv
      rw [hrot] at hc'
      exact hc'.ne_nil rfl
    | cons hadj1 p =>
      rename_i x
      have hc' := hc.rotate hv
      rw [hrot] at hc'
      have hx : x = u := by
        rcases (hadj v x).mp hadj1 with h' | ⟨hvu, -⟩ | ⟨-, hxu⟩
        · exact absurd h' (hiso x)
        · exact absurd hvu.symm huv
        · exact hxu
      have hxv : ¬x = v := fun e => huv (hx ▸ e)
      obtain ⟨y, hy⟩ := walk_exists_edge_into p hxv
      have hyadj : G'.Adj y v := p.adj_of_mem_edges hy
      have hyu : y = u := by
        rcases (hadj y v).mp hyadj with h' | ⟨hyu, -⟩ | ⟨hyv, hvu⟩
        · exact absurd h'.symm (hiso y)
        · exact hyu
        · exact absurd hvu.symm huv
      have hnodup : (SimpleGraph.Walk.cons hadj1 p).edges.Nodup := hc'.edges_nodup
      rw [SimpleGraph.Walk.edges_cons] at hnodup
      have hyfirst : s(v, x) ∈ p.edges := by
        have e1 : s(v, x) = s(y, v) := by
          rw [hx, ← hyu, Sym2.eq_swap]
        rw [e1]
        exact hy
      exact (List.nodup_cons.mp hnodup).1 hyfirst
  · have hG : ∀ e ∈ c.edges, e ∈ G.edgeSet := by
      intro e he
      induction e using Sym2.ind with
      | _ x y =>
        have hxy : G'.Adj x y := c.adj_of_mem_edges he
        rcases (hadj x y).mp hxy with h' | ⟨-, hyv⟩ | ⟨hxv, -⟩
        · exact G.mem_edgeSet.mpr h'
        · subst hyv
          exact absurd (c.snd_mem_support_of_mem_edges he) hv
        · subst hxv
          exact absurd (c.fst_mem_support_of_mem_edges he) hv
    exact hac _ (hc.transfer hG)

theorem pG_le_of_adjL_mono {m m' : Maze}
    (hmono : ∀ x y, y ∈ adjL m x → y ∈ adjL m' x) : pG m ≤ pG m' := by
  intro a b hab
  exact ⟨hab.1, hmono a b hab.2.1, hmono b a hab.2.2⟩

theorem adjL_mono_create_path {m m' : Maze} {a b : Pos}
    (hok : m.create_path a b = .ok m') :
    ∀ x y, y ∈ adjL m x → y ∈ adjL m' x := by
  obtain ⟨-, -, -, -, -, -, -, hother, hA, hB, -⟩ := create_path_ok_inv hok
  intro x y hy
  by_cases hxa : x = a
  · subst hxa
    exact (hA y).mpr (Or.inl hy)
  · by_cases hxb : x = b
    · subst hxb
      exact (hB y).mpr (Or.inl hy)
    · simpa [adjL, hother x hxa hxb] using hy

theorem pG_adj_create_path {m m' : Maze} {c n : Pos} (hcn : c ≠ n)
    (hok : m.create_path c n = .ok m') :
    ∀ x y, (pG m').Adj x y ↔ (pG m).Adj x y ∨ (x = c ∧ y = n) ∨ (x = n ∧ y = c) := by
  obtain ⟨-, -, -, -, -, -, -, hother, hA, hB, hcases⟩ := create_path_ok_inv hok
  intro x y
  constructor
  · rintro ⟨hxy, hyx', hxy'⟩
    rcases hcases x y hyx' with hold1 | hp | hp
    · rcases hcases y x hxy' with hold2 | hp2 | hp2
      · exact Or.inl ⟨hxy, hold1, hold2⟩
      · exact Or.inr (Or.inr ⟨hp2.2, hp2.1⟩)
      · exact Or.inr (Or.inl ⟨hp2.2, hp2.1⟩)
    · exact Or.inr (Or.inl hp)
    · exact Or.inr (Or.inr hp)
  · rintro (⟨hxy, h1, h2⟩ | ⟨hx, hy⟩ | ⟨hx, hy⟩)
    · exact ⟨hxy, adjL_mono_create_path hok x y h1, adjL_mono_create_path hok y x h2⟩
    · rw [hx, hy]
      exact ⟨hcn, (hA n).mpr (Or.inr rfl), (hB c).mpr (Or.inr rfl)⟩
    · rw [hx, hy]
      exact ⟨hcn.symm, (hB c).mpr (Or.inr rfl), (hA n).mpr (Or.inr rfl)⟩

/-- Sum bump: a function increased by one at two distinct points of the index set. -/
theorem sum_two_bump {s : Finset Pos} {f g : Pos → Nat} {a b : Pos} (hab : a ≠ b)
    (ha : a ∈ s) (hb : b ∈ s) (hga : g a = f a + 1) (hgb : g b = f b + 1)
    (hother : ∀ x ∈ s, ¬x = a → ¬x = b → g x = f x) :
    ∑ x ∈ s, g x = (∑ x ∈ s, f x) + 2 := by
  have hbe : b ∈ s.erase a := Finset.mem_erase.mpr ⟨fun e => hab e.symm, hb⟩
  rw [← Finset.add_sum_erase s g ha, ← Finset.add_sum_erase (s.erase a) g hbe,
    ← Finset.add_sum_erase s f ha, ← Finset.add_sum_erase (s.erase a) f hbe]
  have hcongr : ∑ x ∈ (s.erase a).erase b, g x = ∑ x ∈ (s.erase a).erase b, f x := by
    refine Finset.sum_congr rfl ?_
    intro x hx
    have hx1 := Finset.mem_erase.mp hx
    have hx2 := Finset.mem_erase.mp hx1.2
    exact hother x hx2.2 hx2.1 hx1.1
  rw [hcongr, hga, hgb]
  omega

/-- Any grid-closed set containing the origin contains the whole rectangle. -/
theorem rect_closure {w h : Int} (S : Finset Pos) (h0 : (0, 0) ∈ S)
    (hcl : ∀ v ∈ S, v ∈ rect w h → ∀ n, gridStep v n → n ∈ rect w h → n ∈ S) :
    ∀ p ∈ rect w h, p ∈ S := by
  have key : ∀ k : Nat, ∀ p : Pos, p ∈ rect w h → (p.1 + p.2).toNat = k → p ∈ S := by
    intro k
    induction k using Nat.strong_induction_on with
    | _ k ih =>
      intro p hp hk
      obtain ⟨hx0, hxw, hy0, hyh⟩ := mem_rect.mp hp
      by_cases h00 : p.1 = 0 ∧ p.2 = 0
      · have : p = (0, 0) := Prod.ext h00.1 h00.2
        rw [this]
        exact h0
      · by_cases hx : 0 < p.1
        · have hq : ((p.1 - 1, p.2) : Pos) ∈ rect w h := mem_rect.mpr (by constructor <;> omega)
          have hqk : (((p.1 - 1, p.2) : Pos).1 + ((p.1 - 1, p.2) : Pos).2).toNat < k := by
            simp only
            omega
          have hqS : ((p.1 - 1, p.2) : Pos) ∈ S := ih _ hqk _ hq rfl
          refine hcl _ hqS hq p ?_ hp
          right; left
          simp [Prod.ext_iff]
        · have hy : 0 < p.2 := by
            rcases not_and_or.mp h00 with h' | h' <;> omega
          have hq : ((p.1, p.2 - 1) : Pos) ∈ rect w h := mem_rect.mpr (by constructor <;> omega)
          have hqk : (((p.1, p.2 - 1) : Pos).1 + ((p.1, p.2 - 1) : Pos).2).toNat < k := by
            simp only
            omega
          have hqS : ((p.1, p.2 - 1) : Pos) ∈ S := ih _ hqk _ hq rfl
          refine hcl _ hqS hq p ?_ hp
          right; right; right
          simp [Prod.ext_iff]
  intro p hp
  exact key (p.1 + p.2).toNat p hp rfl

end GraphLemmas

section GeneratorInvariant

/-- Invariant of the maze under carving: correct dimensions, exact domain,
symmetric duplicate-free adjacency along grid steps, all passage endpoints
inside the allowed set `V`, and an acyclic passage graph. -/
structure GInvE (w h : Int) (V : Finset Pos) (m : Maze) : Prop where
  wdim : m.width = w
  hdim : m.height = h
  dom : ∀ p : Pos, (m.paths p).isSome ↔ p ∈ rect w h
  sym : ∀ a b : Pos, b ∈ adjL m a → a ∈ adjL m b
  nd : ∀ p : Pos, (adjL m p).Nodup
  grid : ∀ a b : Pos, b ∈ adjL m a → gridStep a b ∧ b ∈ rect w h
  evis : ∀ a b : Pos, b ∈ adjL m a → a ∈ V ∧ b ∈ V
  acyc : (pG m).IsAcyclic

theorem GInvE.mono_V {w h : Int} {V V' : Finset Pos} {m : Maze} (hVV : V ⊆ V')
    (hinv : GInvE w h V m) : GInvE w h V' m :=
  { hinv with evis := fun a b hb => ⟨hVV (hinv.evis a b hb).1, hVV (hinv.evis a b hb).2⟩ }

theorem ginv_init {w h : Int} {s e : Pos} {V : Finset Pos} :
    GInvE w h V ⟨w, h, s, e, initPaths w h⟩ := by
  refine ⟨rfl, rfl, ?_, ?_, ?_, ?_, ?_, ?_⟩
  · intro p
    simp only [initPaths, mem_rect]
    by_cases hp : 0 ≤ p.1 ∧ p.1 < w ∧ 0 ≤ p.2 ∧ p.2 < h <;> simp [hp]
  · intro a b hb
    rw [adjL_init] at hb
    cases hb
  · intro p
    rw [adjL_init]
    exact List.nodup_nil
  · intro a b hb
    rw [adjL_init] at hb
    cases hb
  · intro a b hb
    rw [adjL_init] at hb
    cases hb
  · refine isAcyclic_of_not_adj ?_
    intro a b hab
    have hmem : b ∈ adjL ⟨w, h, s, e, initPaths w h⟩ a := hab.2.1
    rw [adjL_init] at hmem
    exact absurd hmem (List.not_mem_nil b)

/-- Carving one passage from an in-`V` cell `c` to an isolated fresh neighbour `n`
preserves the invariant with `n` adjoined to the allowed set. -/
theorem GInvE.carve_edge {w h : Int} {V : Finset Pos} {m m' : Maze} {c n : Pos}
    (hinv : GInvE w h V m) (hok : m.create_path c n = .ok m')
    (hcV : c ∈ V) (hcrect : c ∈ rect w h) (hstep : gridStep c n) (hnrect : n ∈ rect w h)
    (hnfree : ∀ b, b ∉ adjL m n) (hcn : c ≠ n) :
    GInvE w h (insert n V) m' := by
  obtain ⟨hsc, hsn, hw, hh, -, -, hdom, hother, hA, hB, hcases⟩ := create_path_ok_inv hok
  have hadjiff := pG_adj_create_path hcn hok
  refine ⟨by rw [hw, hinv.wdim], by rw [hh, hinv.hdim], ?_, ?_, ?_, ?_, ?_, ?_⟩
  · intro p
    rw [hdom p]
    exact hinv.dom p
  · intro x y hy
    rcases hcases x y hy with hy' | ⟨hx, hy'⟩ | ⟨hx, hy'⟩
    · exact adjL_mono_create_path hok y x (hinv.sym x y hy')
    · rw [hx, hy']
      exact (hB c).mpr (Or.inr rfl)
    · rw [hx, hy']
      exact (hA n).mpr (Or.inr rfl)
  · -- nodup of the updated lists
    rcases hpc : m.paths c with _ | lc
    · rw [hpc] at hsc; cases hsc
    rcases hpn : m.paths n with _ | ln
    · rw [hpn] at hsn; cases hsn
    have hlnnil : ln = [] := by
      rcases ln with _ | ⟨x, ln⟩
      · rfl
      · exact absurd (by simp [adjL, hpn]) (hnfree x)
    rw [create_path_ok_of hcn hpc hpn] at hok
    cases hok
    intro p
    by_cases hpb : p = n
    · subst hpb
      simp only [adjL, if_pos rfl, Option.getD_some, hlnnil, List.nil_append]
      exact List.nodup_singleton c
    · by_cases hpa : p = c
      · subst hpa
        simp only [adjL, if_neg hpb, if_pos rfl, Option.getD_some]
        refine List.Nodup.append ?_ (List.nodup_singleton n) ?_
        · have := hinv.nd p
          rw [adjL, hpc] at this
          exact this
        · intro x hx hx'
          rw [List.mem_singleton] at hx'
          subst hx'
          have : x ∈ adjL m p := by simp [adjL, hpc, hx]
          exact hnfree p (hinv.sym p x this)
      · simpa [adjL, hpa, hpb] using hinv.nd p
  · intro x y hy
    rcases hcases x y hy with hy' | ⟨hx, hy'⟩ | ⟨hx, hy'⟩
    · exact hinv.grid x y hy'
    · rw [hx, hy']
      exact ⟨hstep, hnrect⟩
    · rw [hx, hy']
      exact ⟨gridStep_symm hstep, hcrect⟩
  · intro x y hy
    rcases hcases x y hy with hy' | ⟨hx, hy'⟩ | ⟨hx, hy'⟩
    · have := hinv.evis x y hy'
      exact ⟨Finset.mem_insert_of_mem this.1, Finset.mem_insert_of_mem this.2⟩
    · rw [hx, hy']
      exact ⟨Finset.mem_insert_of_mem hcV, Finset.mem_insert_self n V⟩
    · rw [hx, hy']
      exact ⟨Finset.mem_insert_self n V, Finset.mem_insert_of_mem hcV⟩
  · refine isAcyclic_add_pendant (u := c) (v := n) hcn ?_ hadjiff hinv.acyc
    intro z hz
    exact hnfree z hz.2.1

end GeneratorInvariant

section CarveSpec

theorem edgeSum_eq_of_dims {m : Maze} {w h : Int} (hw : m.width = w) (hh : m.height = h) :
    edgeSum m = ∑ p ∈ rect w h, (adjL m p).length := by
  rw [edgeSum, hw, hh]

/-- One iteration of the carving `for` loop. -/
def carveStep (shuffle : Nat → List Pos → List Pos) (fuel : Nat) (current : Pos)
    (acc : GenSt) (n : Pos) : GenSt :=
  if n ∈ acc.visited then acc
  else
    match acc.maze.create_path current n with
    | .error m' => ⟨m', acc.visited, acc.ctr⟩
    | .ok m' => carve shuffle fuel n ⟨m', acc.visited, acc.ctr⟩

theorem carve_succ (shuffle : Nat → List Pos → List Pos) (fuel : Nat) (c : Pos) (st : GenSt) :
    carve shuffle (fuel + 1) c st =
      (shuffle st.ctr (st.maze.adjascent c)).foldl (carveStep shuffle fuel c)
        ⟨st.maze, insert c st.visited, st.ctr + 1⟩ := rfl

/-- Main specification of the carving recursion: starting from a fresh in-bounds
cell `c` whose pending edge set is `insert c st.visited`, carving preserves the
maze invariant, only grows the visited set and the passages, makes every newly
visited cell reachable from `c` in the passage graph, leaves every newly visited
cell grid-closed in the visited set, and adds exactly one passage (two directed
entries) per newly visited cell beyond `c` itself. -/
theorem carve_spec (shuffle : Nat → List Pos → List Pos)
    (hshuf : ∀ (i : Nat) (l : List Pos), (shuffle i l).Perm l) (w h : Int) :
    ∀ (fuel : Nat) (c : Pos) (st : GenSt),
      GInvE w h (insert c st.visited) st.maze →
      st.visited ⊆ rect w h →
      c ∈ rect w h → c ∉ st.visited →
      (rect w h \ st.visited).card ≤ fuel →
      GInvE w h (carve shuffle fuel c st).visited (carve shuffle fuel c st).maze ∧
      insert c st.visited ⊆ (carve shuffle fuel c st).visited ∧
      (carve shuffle fuel c st).visited ⊆ rect w h ∧
      (∀ a b : Pos, b ∈ adjL st.maze a → b ∈ adjL (carve shuffle fuel c st).maze a) ∧
      (∀ v ∈ (carve shuffle fuel c st).visited, v ∉ st.visited →
        (pG (carve shuffle fuel c st).maze).Reachable c v) ∧
      (∀ v ∈ (carve shuffle fuel c st).visited, v ∉ st.visited →
        ∀ n : Pos, gridStep v n → n ∈ rect w h → n ∈ (carve shuffle fuel c st).visited) ∧
      edgeSum (carve shuffle fuel c st).maze + 2 * st.visited.card + 2 =
        edgeSum st.maze + 2 * (carve shuffle fuel c st).visited.card := by
  intro fuel
  induction fuel with
  | zero =>
    intro c st hinv hvr hcr hcv hcard
    exfalso
    have hmem : c ∈ rect w h \ st.visited := Finset.mem_sdiff.mpr ⟨hcr, hcv⟩
    have hpos : 0 < (rect w h \ st.visited).card := Finset.card_pos.mpr ⟨c, hmem⟩
    omega
  | succ fuel ih =>
    intro c st hinv hvr hcr hcv hcard
    have main : ∀ ns : List Pos, (∀ n ∈ ns, gridStep c n ∧ n ∈ rect w h) →
        ∀ acc : GenSt,
        GInvE w h acc.visited acc.maze →
        acc.visited ⊆ rect w h →
        c ∈ acc.visited →
        (rect w h \ acc.visited).card ≤ fuel →
        GInvE w h (ns.foldl (carveStep shuffle fuel c) acc).visited
          (ns.foldl (carveStep shuffle fuel c) acc).maze ∧
        acc.visited ⊆ (ns.foldl (carveStep shuffle fuel c) acc).visited ∧
        (ns.foldl (carveStep shuffle fuel c) acc).visited ⊆ rect w h ∧
        (∀ a b : Pos, b ∈ adjL acc.maze a →
          b ∈ adjL (ns.foldl (carveStep shuffle fuel c) acc).maze a) ∧
        (∀ n ∈ ns, n ∈ (ns.foldl (carveStep shuffle fuel c) acc).visited) ∧
        (∀ v ∈ (ns.foldl (carveStep shuffle fuel c) acc).visited, v ∉ acc.visited →
          (pG (ns.foldl (carveStep shuffle fuel c) acc).maze).Reachable c v) ∧
        (∀ v ∈ (ns.foldl (carveStep shuffle fuel c) acc).visited, v ∉ acc.visited →
          ∀ nn : Pos, gridStep v nn → nn ∈ rect w h →
            nn ∈ (ns.foldl (carveStep shuffle fuel c) acc).visited) ∧
        edgeSum (ns.foldl (carveStep shuffle fuel c) acc).maze + 2 * acc.visited.card =
          edgeSum acc.maze + 2 * (ns.foldl (carveStep shuffle fuel c) acc).visited.card := by
      intro ns
      induction ns with
      | nil =>
        intro hns acc hacc hvracc hcacc hcardacc
        refine ⟨hacc, Finset.Subset.refl _, hvracc, fun a b hb => hb, ?_, ?_, ?_, rfl⟩
        · intro x hx
          cases hx
        · intro v hv hv'
          exact absurd hv hv'
        · intro v hv hv'
          exact absurd hv hv'
      | cons n ns ihns =>
        intro hns acc hacc hvracc hcacc hcardacc
        rw [List.foldl_cons]
        by_cases hmem : n ∈ acc.visited
        · have hred : carveStep shuffle fuel c acc n = acc := by
            simp only [carveStep, if_pos hmem]
          rw [hred]
          obtain ⟨A2, B2, C2, D2, E2, F2, G2, H2⟩ :=
            ihns (fun x hx => hns x (List.mem_cons_of_mem _ hx)) acc hacc hvracc hcacc hcardacc
          refine ⟨A2, B2, C2, D2, ?_, F2, G2, H2⟩
          intro x hx
          rcases List.mem_cons.mp hx with hx | hx
          · rw [hx]
            exact B2 hmem
          · exact E2 x hx
        · have hgsn := hns n (List.mem_cons_self n ns)
          have hcn : c ≠ n := fun e => hmem (e ▸ hcacc)
          have hsc : (acc.maze.paths c).isSome := (hacc.dom c).mpr hcr
          have hsn : (acc.maze.paths n).isSome := (hacc.dom n).mpr hgsn.2
          rcases hpc : acc.maze.paths c with _ | lc
          · rw [hpc] at hsc; cases hsc
          rcases hpn : acc.maze.paths n with _ | ln
          · rw [hpn] at hsn; cases hsn
          have hnfree : ∀ b, b ∉ adjL acc.maze n := fun b hb => hmem (hacc.evis n b hb).1
          set M2 : Maze := { acc.maze with paths := fun q => if q = n then some (ln ++ [c]) else if q = c then some (lc ++ [n]) else acc.maze.paths q } with hM2
          have hok : acc.maze.create_path c n = .ok M2 := create_path_ok_of hcn hpc hpn
          set stmid : GenSt := ⟨M2, acc.visited, acc.ctr⟩ with hstmid
          have hred : carveStep shuffle fuel c acc n = carve shuffle fuel n stmid := by
            simp only [carveStep, if_neg hmem, hok]
          rw [hred]
          set stc := carve shuffle fuel n stmid with hstc
          have hinv' : GInvE w h (insert n acc.visited) M2 :=
            hacc.carve_edge hok hcacc hcr hgsn.1 hgsn.2 hnfree hcn
          obtain ⟨A1, B1, C1, D1, F1, G1, H1⟩ :=
            ih n stmid hinv' hvracc hgsn.2 hmem hcardacc
          have hsub2 : acc.visited ⊆ stc.visited :=
            fun x hx => B1 (Finset.mem_insert_of_mem hx)
          obtain ⟨A2, B2, C2, D2, E2, F2, G2, H2⟩ :=
            ihns (fun x hx => hns x (List.mem_cons_of_mem _ hx)) stc A1 C1
              (hsub2 hcacc)
              (le_trans (Finset.card_le_card
                (Finset.sdiff_subset_sdiff (Finset.Subset.refl _) hsub2)) hcardacc)
          refine ⟨A2, fun x hx => B2 (hsub2 hx), C2, ?_, ?_, ?_, ?_, ?_⟩
          · intro a b hb
            exact D2 a b (D1 a b (adjL_mono_create_path hok a b hb))
          · intro x hx
            rcases List.mem_cons.mp hx with hx | hx
            · rw [hx]
              exact B2 (B1 (Finset.mem_insert_self n _))
            · exact E2 x hx
          · intro v hv hv'
            by_cases hv2 : v ∈ stc.visited
            · have hrv := F1 v hv2 hv'
              have hrv2 := hrv.mono (pG_le_of_adjL_mono D2)
              have hadjcn : (pG M2).Adj c n :=
                (pG_adj_create_path hcn hok c n).mpr (Or.inr (Or.inl ⟨rfl, rfl⟩))
              have hadjR := pG_le_of_adjL_mono (fun x y hy => D2 x y (D1 x y hy)) hadjcn
              exact hadjR.reachable.trans hrv2
            · exact F2 v hv hv2
          · intro v hv hv'
            by_cases hv2 : v ∈ stc.visited
            · intro nn hnn hnnr
              exact B2 (G1 v hv2 hv' nn hnn hnnr)
            · exact G2 v hv hv2
          · have hbump : ∑ p ∈ rect w h, (adjL M2 p).length =
                (∑ p ∈ rect w h, (adjL acc.maze p).length) + 2 := by
              refine sum_two_bump hcn hcr hgsn.2 ?_ ?_ ?_
              · simp [hM2, adjL, hpc, hcn]
              · simp [hM2, adjL, hpn]
              · intro x hx hxc hxn
                simp [hM2, adjL, hxc, hxn]
            have hsm : stmid.maze = M2 := rfl
            have hsv : stmid.visited = acc.visited := rfl
            rw [hsm, hsv] at H1
            rw [show carve shuffle fuel n stmid = stc from hstc.symm] at H1
            have e1 := edgeSum_eq_of_dims hacc.wdim hacc.hdim
            have e2 := edgeSum_eq_of_dims hinv'.wdim hinv'.hdim
            have e3 := edgeSum_eq_of_dims A1.wdim A1.hdim
            have e4 := edgeSum_eq_of_dims A2.wdim A2.hdim
            rw [e4, e1]
            rw [e4, e3] at H2
            rw [e3, e2] at H1
            omega
    have hns0 : ∀ n ∈ shuffle st.ctr (st.maze.adjascent c), gridStep c n ∧ n ∈ rect w h := by
      intro n hn
      have hmem := (hshuf st.ctr (st.maze.adjascent c)).mem_iff.mp hn
      have hx := mem_adjascent_iff.mp hmem
      rwa [hinv.wdim, hinv.hdim] at hx
    have hcard1 : (rect w h \ insert c st.visited).card ≤ fuel := by
      rw [Finset.sdiff_insert]
      have hc' : c ∈ rect w h \ st.visited := Finset.mem_sdiff.mpr ⟨hcr, hcv⟩
      rw [Finset.card_erase_of_mem hc']
      omega
    obtain ⟨A0, B0, C0, D0, E0, F0, G0, H0⟩ :=
      main (shuffle st.ctr (st.maze.adjascent c)) hns0
        ⟨st.maze, insert c st.visited, st.ctr + 1⟩ hinv
        (Finset.insert_subset hcr hvr) (Finset.mem_insert_self c _) hcard1
    rw [carve_succ]
    refine ⟨A0, B0, C0, D0, ?_, ?_, ?_⟩
    · intro v hv hv'
      by_cases hvc : v = c
      · rw [hvc]
      · refine F0 v hv ?_
        intro hvmem
        rcases Finset.mem_insert.mp hvmem with h' | h'
        · exact hvc h'
        · exact hv' h'
    · intro v hv hv' nn hnn hnnr
      by_cases hvc : v = c
      · have hnn' : nn ∈ st.maze.adjascent c := by
          rw [mem_adjascent_iff, hinv.wdim, hinv.hdim]
          rw [hvc] at hnn
          exact ⟨hnn, hnnr⟩
        have hnns : nn ∈ shuffle st.ctr (st.maze.adjascent c) :=
          (hshuf st.ctr (st.maze.adjascent c)).mem_iff.mpr hnn'
        exact E0 nn hnns
      · refine G0 v hv ?_ nn hnn hnnr
        intro hvmem
        rcases Finset.mem_insert.mp hvmem with h' | h'
        · exact hvc h'
        · exact hv' h'
    · have hcins : (insert c st.visited).card = st.visited.card + 1 :=
        Finset.card_insert_of_not_mem hcv
      have hsv0 : (⟨st.maze, insert c st.visited, st.ctr + 1⟩ : GenSt).visited =
          insert c st.visited := rfl
      have hsm0 : (⟨st.maze, insert c st.visited, st.ctr + 1⟩ : GenSt).maze = st.maze := rfl
      rw [hsv0, hsm0] at H0
      omega

end CarveSpec

theorem generate_eq_carve {w h : Int} (shuffle : Nat → List Pos → List Pos) :
    SimpleGenerator.generate w h shuffle =
      (carve shuffle (w.toNat * h.toNat + 1) Pos.zero
        ⟨⟨w, h, (0, 0), (w - 1, h - 1), initPaths w h⟩, ∅, 0⟩).maze := by
  simp only [SimpleGenerator.generate, mazeNew_nil]

theorem toNat_mul_of_nonneg {w h : Int} (hw : 0 ≤ w) (hh : 0 ≤ h) :
    (w * h).toNat = w.toNat * h.toNat := by
  obtain ⟨wn, rfl⟩ := Int.eq_ofNat_of_zero_le hw
  obtain ⟨hn, rfl⟩ := Int.eq_ofNat_of_zero_le hh
  rw [← Int.natCast_mul, Int.toNat_natCast, Int.toNat_natCast, Int.toNat_natCast]

/-- C1 — for all w, h ≥ 1 and every sequence of shuffle choices (any oracle whose
outputs are permutations of its inputs), the passage graph of the generated maze
is a spanning tree of the w×h grid: all cells are mutually reachable, the graph
is acyclic, adjacency is symmetric and duplicate-free, there are exactly
`w*h - 1` undirected passages (`2*(w*h - 1)` directed adjacency entries), and any
two cells are joined by exactly one simple path. -/
theorem C1_generator_spanning_tree (w h : Int) (hw : 1 ≤ w) (hh : 1 ≤ h)
    (shuffle : Nat → List Pos → List Pos)
    (hshuf : ∀ (i : Nat) (l : List Pos), (shuffle i l).Perm l) :
    (∀ a ∈ rect w h, ∀ b ∈ rect w h,
      (pG (SimpleGenerator.generate w h shuffle)).Reachable a b) ∧
    (pG (SimpleGenerator.generate w h shuffle)).IsAcyclic ∧
    (∀ a b : Pos, b ∈ adjL (SimpleGenerator.generate w h shuffle) a ↔
      a ∈ adjL (SimpleGenerator.generate w h shuffle) b) ∧
    (∀ p : Pos, (adjL (SimpleGenerator.generate w h shuffle) p).Nodup) ∧
    edgeSum (SimpleGenerator.generate w h shuffle) = 2 * ((w * h).toNat - 1) ∧
    (∀ a ∈ rect w h, ∀ b ∈ rect w h,
      Nonempty ((pG (SimpleGenerator.generate w h shuffle)).Path a b) ∧
      ∀ p q : (pG (SimpleGenerator.generate w h shuffle)).Path a b, p = q) := by
  rw [generate_eq_carve]
  have hcr : Pos.zero ∈ rect w h := by
    have hz : (Pos.zero).1 = 0 ∧ (Pos.zero).2 = 0 := ⟨rfl, rfl⟩
    rw [mem_rect, hz.1, hz.2]
    omega
  have hcard : (rect w h \ (⟨⟨w, h, (0, 0), (w - 1, h - 1), initPaths w h⟩, ∅, 0⟩ :
      GenSt).visited).card ≤ w.toNat * h.toNat + 1 := by
    rw [show (⟨⟨w, h, (0, 0), (w - 1, h - 1), initPaths w h⟩, ∅, 0⟩ :
      GenSt).visited = ∅ from rfl, Finset.sdiff_empty, card_rect]
    omega
  obtain ⟨A, B, C, D, F, G, H⟩ :=
    carve_spec shuffle hshuf w h (w.toNat * h.toNat + 1) Pos.zero
      ⟨⟨w, h, (0, 0), (w - 1, h - 1), initPaths w h⟩, ∅, 0⟩
      ginv_init (Finset.empty_subset _) hcr (Finset.not_mem_empty _) hcard
  have hvis : (carve shuffle (w.toNat * h.toNat + 1) Pos.zero
      ⟨⟨w, h, (0, 0), (w - 1, h - 1), initPaths w h⟩, ∅, 0⟩).visited = rect w h := by
    refine Finset.Subset.antisymm C ?_
    refine rect_closure _ (B (Finset.mem_insert_self _ _)) ?_
    intro v hv hvr' n hgs hnr
    exact G v hv (Finset.not_mem_empty v) n hgs hnr
  have hreach : ∀ a ∈ rect w h,
      (pG (carve shuffle (w.toNat * h.toNat + 1) Pos.zero
        ⟨⟨w, h, (0, 0), (w - 1, h - 1), initPaths w h⟩, ∅, 0⟩).maze).Reachable Pos.zero a := by
    intro a ha
    refine F a ?_ (Finset.not_mem_empty a)
    rw [hvis]
    exact ha
  refine ⟨?_, A.acyc, ?_, A.nd, ?_, ?_⟩
  · intro a ha b hb
    exact (hreach a ha).symm.trans (hreach b hb)
  · intro a b
    exact ⟨A.sym a b, A.sym b a⟩
  · have hinit0 : edgeSum (⟨⟨w, h, (0, 0), (w - 1, h - 1), initPaths w h⟩, ∅, 0⟩ :
        GenSt).maze = 0 := by
      refine Finset.sum_eq_zero ?_
      intro p hp
      rw [adjL_init]
      rfl
    rw [show (⟨⟨w, h, (0, 0), (w - 1, h - 1), initPaths w h⟩, ∅, 0⟩ :
      GenSt).visited = ∅ from rfl] at H
    rw [hinit0, hvis, card_rect, Finset.card_empty] at H
    rw [toNat_mul_of_nonneg (by omega) (by omega)]
    have hpos : 1 ≤ w.toNat * h.toNat := by
      have hw1 : 1 ≤ w.toNat := by omega
      have hh1 : 1 ≤ h.toNat := by omega
      exact Nat.one_le_iff_ne_zero.mpr (by positivity)
    omega
  · intro a ha b hb
    have hr := (hreach a ha).symm.trans (hreach b hb)
    constructor
    · exact hr.elim fun wk => ⟨wk.toPath⟩
    · intro p q
      exact SimpleGraph.isAcyclic_iff_path_unique.mp A.acyc p q

/-- C1 witness: the 2×2 instance with the identity shuffle oracle. -/
theorem C1_generator_spanning_tree_witness :
    (pG (SimpleGenerator.generate 2 2 idShuffle)).IsAcyclic ∧
    edgeSum (SimpleGenerator.generate 2 2 idShuffle) = 2 * ((2 * 2 : Int).toNat - 1) := by
  have hx := C1_generator_spanning_tree 2 2 (by decide) (by decide) idShuffle
    (fun i l => List.Perm.refl l)
  exact ⟨hx.2.1, hx.2.2.2.2.1⟩

section ExecutorProofs

/-- The maze facts the executor-run proofs rely on; every generator-produced maze
satisfies them (established below). -/
structure SolvableMaze (m : Maze) : Prop where
  dom : ∀ p : Pos, (m.paths p).isSome ↔ p ∈ rect m.width m.height
  sym : ∀ a b : Pos, b ∈ adjL m a → a ∈ adjL m b
  nd : ∀ p : Pos, (adjL m p).Nodup
  grid : ∀ a b : Pos, b ∈ adjL m a → gridStep a b ∧ b ∈ rect m.width m.height
  conn : ∀ c ∈ rect m.width m.height, (pG m).Reachable m.start c
  acyc : (pG m).IsAcyclic
  startIn : m.start ∈ rect m.width m.height
  endIn : m.endp ∈ rect m.width m.height

theorem adjL_ne {m : Maze} (hm : SolvableMaze m) {a b : Pos} (h : b ∈ adjL m a) : b ≠ a := by
  rcases (hm.grid a b h).1 with h' | h' | h' | h' <;>
    (rw [h']; intro e; rw [Prod.ext_iff] at e; omega)

theorem adjL_left_mem_rect {m : Maze} (hm : SolvableMaze m) {a b : Pos}
    (h : b ∈ adjL m a) : a ∈ rect m.width m.height := by
  by_contra ha
  have : (m.paths a).isSome = false := by
    rcases hp : m.paths a with _ | l
    · rfl
    · exact absurd ((hm.dom a).mp (by simp [hp])) ha
  rcases hp : m.paths a with _ | l
  · rw [adjL, hp] at h
    cases h
  · rw [hp] at this
    cases this

theorem pG_adj_of_adjL {m : Maze} (hm : SolvableMaze m) {a b : Pos}
    (h : b ∈ adjL m a) : (pG m).Adj a b :=
  ⟨(adjL_ne hm (hm.sym a b h)), h, hm.sym a b h⟩

/-- Every generated maze (any size ≥ 1, any permutation oracle) is solvable. -/
theorem generate_solvable {w h : Int} (hw : 1 ≤ w) (hh : 1 ≤ h)
    (shuffle : Nat → List Pos → List Pos)
    (hshuf : ∀ (i : Nat) (l : List Pos), (shuffle i l).Perm l) :
    SolvableMaze (SimpleGenerator.generate w h shuffle) ∧
    (SimpleGenerator.generate w h shuffle).width = w ∧
    (SimpleGenerator.generate w h shuffle).height = h ∧
    (SimpleGenerator.generate w h shuffle).start = (0, 0) ∧
    (SimpleGenerator.generate w h shuffle).endp = (w - 1, h - 1) := by
  obtain ⟨e1, e2, e3, e4⟩ := generate_fields (w := w) (h := h) shuffle
  rw [generate_eq_carve]
  rw [generate_eq_carve] at e1 e2 e3 e4
  have hcr : Pos.zero ∈ rect w h := by
    have hz : (Pos.zero).1 = 0 ∧ (Pos.zero).2 = 0 := ⟨rfl, rfl⟩
    rw [mem_rect, hz.1, hz.2]
    omega
  have hcard : (rect w h \ (⟨⟨w, h, (0, 0), (w - 1, h - 1), initPaths w h⟩, ∅, 0⟩ :
      GenSt).visited).card ≤ w.toNat * h.toNat + 1 := by
    rw [show (⟨⟨w, h, (0, 0), (w - 1, h - 1), initPaths w h⟩, ∅, 0⟩ :
      GenSt).visited = ∅ from rfl, Finset.sdiff_empty, card_rect]
    omega
  obtain ⟨A, B, C, D, F, G, H⟩ :=
    carve_spec shuffle hshuf w h (w.toNat * h.toNat + 1) Pos.zero
      ⟨⟨w, h, (0, 0), (w - 1, h - 1), initPaths w h⟩, ∅, 0⟩
      ginv_init (Finset.empty_subset _) hcr (Finset.not_mem_empty _) hcard
  have hvis : (carve shuffle (w.toNat * h.toNat + 1) Pos.zero
      ⟨⟨w, h, (0, 0), (w - 1, h - 1), initPaths w h⟩, ∅, 0⟩).visited = rect w h := by
    refine Finset.Subset.antisymm C ?_
    refine rect_closure _ (B (Finset.mem_insert_self _ _)) ?_
    intro v hv hvr' n hgs hnr
    exact G v hv (Finset.not_mem_empty v) n hgs hnr
  refine ⟨⟨?_, ?_, ?_, ?_, ?_, ?_, ?_, ?_⟩, e1, e2, e3, e4⟩
  · rw [e1, e2]
    exact A.dom
  · exact A.sym
  · exact A.nd
  · rw [e1, e2]
    exact A.grid
  · rw [e1, e2, e3]
    intro c hc
    have hz : ((0, 0) : Pos) = Pos.zero := rfl
    rw [hz]
    refine F c ?_ (Finset.not_mem_empty c)
    rw [hvis]
    exact hc
  · exact A.acyc
  · rw [e1, e2, e3]
    exact hcr
  · rw [e1, e2, e4, mem_rect]
    constructor
    · omega
    · exact ⟨by omega, by omega, by omega⟩

end ExecutorProofs

section DFSRun

/-- Positions of a stack, bottom-most last. -/
def posBottom (stack : List Frame) : Option Pos := (stack.map Frame.position).getLast?

/-- The depth-first stack discipline: each frame's branches come from the passages
of its position, each position is a passage-neighbour of the frame below it, and
the bottom of the stack hangs off the maze start; `pos` hangs off the top. -/
def StackOK (m : Maze) : List Frame → Pos → Prop
  | [], pos => pos = m.start
  | f :: rest, pos => pos ∈ adjL m f.position ∧
      (∀ x ∈ f.remaining_branches, x ∈ adjL m f.position) ∧ StackOK m rest f.position

theorem getLast?_append_right {α : Type} (l1 l2 : List α) (h : l2 ≠ []) :
    (l1 ++ l2).getLast? = l2.getLast? := by
  induction l1 with
  | nil => rfl
  | cons a l ih =>
    rcases hl : l ++ l2 with _ | ⟨b, t⟩
    · exact absurd (List.append_eq_nil.mp hl).2 h
    · rw [List.cons_append, hl, List.getLast?_cons_cons, ← hl, ih]

theorem head?_append_left {α : Type} (xs ys : List α) (h : xs ≠ []) :
    (xs ++ ys).head? = xs.head? := by
  cases xs with
  | nil => exact absurd rfl h
  | cons a t => rfl

theorem scanBranches_none {visited : Finset Pos} :
    ∀ l, scanBranches visited l = none → ∀ b ∈ l, b ∈ visited := by
  intro l
  induction l with
  | nil => intro _ b hb; cases hb
  | cons x t ih =>
    intro h b hb
    rw [scanBranches] at h
    by_cases hx : x ∈ visited
    · rw [if_pos hx] at h
      rcases List.mem_cons.mp hb with rfl | hb'
      · exact hx
      · exact ih h b hb'
    · rw [if_neg hx] at h
      cases h

theorem scanBranches_some {visited : Finset Pos} :
    ∀ l b bs, scanBranches visited l = some (b, bs) →
      b ∉ visited ∧ ∃ pre, l = pre ++ b :: bs ∧ ∀ x ∈ pre, x ∈ visited := by
  intro l
  induction l with
  | nil => intro b bs h; cases h
  | cons x t ih =>
    intro b bs h
    rw [scanBranches] at h
    by_cases hx : x ∈ visited
    · rw [if_pos hx] at h
      obtain ⟨hb, pre, hpre, hprev⟩ := ih b bs h
      refine ⟨hb, x :: pre, by rw [hpre, List.cons_append], ?_⟩
      intro y hy
      rcases List.mem_cons.mp hy with rfl | hy'
      · exact hx
      · exact hprev y hy'
    · rw [if_neg hx] at h
      simp only [Option.some.injEq, Prod.mk.injEq] at h
      obtain ⟨rfl, rfl⟩ := h
      exact ⟨hx, [], rfl, by intro y hy; cases hy⟩

theorem dfLoop_none {visited : Finset Pos} :
    ∀ stack, dfLoop visited stack = none →
      ∀ f ∈ stack, ∀ b ∈ f.remaining_branches, b ∈ visited := by
  intro stack
  induction stack with
  | nil => intro _ f hf; cases hf
  | cons fr rest ih =>
    intro h f hf
    rw [dfLoop] at h
    rcases hscan : scanBranches visited fr.remaining_branches with _ | ⟨b, bs⟩
    · rw [hscan] at h
      rcases List.mem_cons.mp hf with rfl | hf'
      · exact scanBranches_none _ hscan
      · exact ih h f hf'
    · rw [hscan] at h
      cases h

theorem dfLoop_some {visited : Finset Pos} :
    ∀ stack stack2 g, dfLoop visited stack = some (stack2, g) →
      ∃ dropped f b bs rest,
        stack = dropped ++ f :: rest ∧
        (∀ fr ∈ dropped, ∀ x ∈ fr.remaining_branches, x ∈ visited) ∧
        b ∉ visited ∧
        (∃ pre, f.remaining_branches = pre ++ b :: bs ∧ ∀ x ∈ pre, x ∈ visited) ∧
        stack2 = (⟨f.position, bs⟩ : Frame) :: rest ∧
        g = ((⟨f.position, bs⟩ : Frame) :: rest).reverse.map Frame.position ++ [b] := by
  intro stack
  induction stack with
  | nil => intro s2 g h; cases h
  | cons f rest ih =>
    intro s2 g h
    rw [dfLoop] at h
    rcases hscan : scanBranches visited f.remaining_branches with _ | ⟨b, bs⟩
    · rw [hscan] at h
      obtain ⟨dropped, f', b, bs, rest', e1, e2, e3, e4, e5, e6⟩ := ih s2 g h
      refine ⟨f :: dropped, f', b, bs, rest', by rw [e1, List.cons_append], ?_, e3, e4, e5, e6⟩
      intro fr hfr
      rcases List.mem_cons.mp hfr with rfl | hfr'
      · exact scanBranches_none _ hscan
      · exact e2 fr hfr'
    · rw [hscan] at h
      obtain ⟨hb, pre, hpre, hprev⟩ := scanBranches_some _ _ _ hscan
      simp only [Option.some.injEq, Prod.mk.injEq] at h
      exact ⟨[], f, b, bs, rest, rfl, (by intro fr hfr; cases hfr), hb, ⟨pre, hpre, hprev⟩,
        h.1.symm, h.2.symm⟩

theorem stackOK_drop {m : Maze} :
    ∀ (pre : List Frame) (f : Frame) (rest : List Frame) (q : Pos),
      StackOK m (pre ++ f :: rest) q →
      (∀ x ∈ f.remaining_branches, x ∈ adjL m f.position) ∧ StackOK m rest f.position := by
  intro pre
  induction pre with
  | nil => intro f rest q h; exact ⟨h.2.1, h.2.2⟩
  | cons fr pre ih =>
    intro f rest q h
    exact ih f rest fr.position h.2.2

theorem stackOK_start {m : Maze} :
    ∀ (stack : List Frame) (pos : Pos), StackOK m stack pos →
      pos = m.start ∨ ∃ f ∈ stack, f.position = m.start := by
  intro stack
  induction stack with
  | nil => intro pos h; exact Or.inl h
  | cons f rest ih =>
    intro pos h
    rcases ih f.position h.2.2 with h' | ⟨f', hf', hp'⟩
    · exact Or.inr ⟨f, List.mem_cons_self _ _, h'⟩
    · exact Or.inr ⟨f', List.mem_cons_of_mem _ hf', hp'⟩

theorem stackOK_chain {m : Maze} :
    ∀ (stack : List Frame) (pos : Pos), StackOK m stack pos →
      List.Chain' (fun a b => b ∈ adjL m a) ((stack.map Frame.position).reverse ++ [pos]) ∧
      ((stack.map Frame.position).reverse ++ [pos]).head? = some m.start := by
  intro stack
  induction stack with
  | nil =>
    intro pos h
    have h' : pos = m.start := h
    subst h'
    exact ⟨List.chain'_singleton _, rfl⟩
  | cons f rest ih =>
    intro pos h
    obtain ⟨h1, _, h3⟩ := h
    obtain ⟨c1, c2⟩ := ih f.position h3
    have e : ((f :: rest).map Frame.position).reverse ++ [pos]
        = ((rest.map Frame.position).reverse ++ [f.position]) ++ [pos] := by
      rw [List.map_cons, List.reverse_cons]
    rw [e]
    constructor
    · rw [List.chain'_append]
      refine ⟨c1, List.chain'_singleton _, ?_⟩
      intro x hx y hy
      simp only [List.getLast?_concat, Option.mem_def, Option.some.injEq] at hx
      simp only [List.head?_cons, Option.mem_def, Option.some.injEq] at hy
      subst hx
      subst hy
      exact h1
    · rw [head?_append_left _ _ (by simp)]
      exact c2

/-- Membership of a closed set is preserved along passage-graph reachability. -/
theorem reach_mem_closed {m : Maze} {S : Finset Pos}
    (hcl : ∀ v ∈ S, ∀ b ∈ adjL m v, b ∈ S) {a b : Pos}
    (ha : a ∈ S) (hr : (pG m).Reachable a b) : b ∈ S := by
  obtain ⟨wk⟩ := hr
  revert ha
  induction wk with
  | nil => intro ha; exact ha
  | cons hadj p ih => intro ha; exact ih (hcl _ ha _ hadj.2.1)

/-- Invariant of the depth-first executor run, between two `progress` calls:
`pos` is the fresh in-bounds cell just proposed (not yet the end), the end is
unvisited, the stack obeys the stack discipline with visited positions, and
every passage out of the visited region is either visited, still pending in
some frame, or leads to `pos`. -/
structure DFInv (m : Maze) (s : DepthFirst) (pos : Pos) : Prop where
  posIn : pos ∈ rect m.width m.height
  posFresh : pos ∉ s.visited
  posNotEnd : pos ≠ m.endp
  endFresh : m.endp ∉ s.visited
  vsub : s.visited ⊆ rect m.width m.height
  stackOK : StackOK m s.stack pos
  stackVis : ∀ f ∈ s.stack, f.position ∈ s.visited
  cover : ∀ c ∈ s.visited, ∀ b ∈ adjL m c,
    b ∈ s.visited ∨ (∃ f ∈ s.stack, b ∈ f.remaining_branches) ∨ b = pos

theorem dfInv_init {m : Maze} (hm : SolvableMaze m) (hse : m.start ≠ m.endp) :
    DFInv m DepthFirst.new m.start :=
  ⟨hm.startIn, Finset.not_mem_empty _, hse, Finset.not_mem_empty _, Finset.empty_subset _,
    rfl, (by intro f hf; cases hf), (by intro c hc; exact absurd hc (Finset.not_mem_empty c))⟩

theorem df_step {m : Maze} (hm : SolvableMaze m) {s : DepthFirst} {pos : Pos}
    (hinv : DFInv m s pos) :
    ∃ (s2 : DepthFirst) (g : List Pos) (t : Pos),
      DepthFirst.progress s pos (adjL m pos) = some (s2, g) ∧
      s2.visited = insert pos s.visited ∧
      StackOK m s2.stack t ∧ s2.stack ≠ [] ∧
      g = (s2.stack.map Frame.position).reverse ++ [t] ∧
      t ∉ insert pos s.visited ∧ t ∈ rect m.width m.height ∧
      (t ≠ m.endp → DFInv m s2 t) := by
  set visited' := insert pos s.visited with hv'
  set stack1 := (⟨pos, (adjL m pos).reverse⟩ : Frame) :: s.stack with hs1
  have hendv' : m.endp ∉ visited' := by
    intro hmem
    rcases Finset.mem_insert.mp hmem with h | h
    · exact hinv.posNotEnd h.symm
    · exact hinv.endFresh h
  have hstart_mem : m.start ∈ visited' := by
    rcases stackOK_start s.stack pos hinv.stackOK with h | ⟨f, hf, hfp⟩
    · rw [← h]
      exact Finset.mem_insert_self _ _
    · rw [← hfp]
      exact Finset.mem_insert_of_mem (hinv.stackVis f hf)
  have hne : dfLoop visited' stack1 ≠ none := by
    intro hnone
    have hall := dfLoop_none _ hnone
    have hclosed : ∀ c ∈ visited', ∀ b ∈ adjL m c, b ∈ visited' := by
      intro c hc b hb
      rcases Finset.mem_insert.mp hc with rfl | hc'
      · exact hall ⟨c, (adjL m c).reverse⟩ (List.mem_cons_self _ _) b (List.mem_reverse.mpr hb)
      · rcases hinv.cover c hc' b hb with h | ⟨f, hf, hbf⟩ | rfl
        · exact Finset.mem_insert_of_mem h
        · exact hall f (List.mem_cons_of_mem _ hf) b hbf
        · exact Finset.mem_insert_self _ _
    exact hendv' (reach_mem_closed hclosed hstart_mem (hm.conn m.endp hm.endIn))
  rcases hloop : dfLoop visited' stack1 with _ | ⟨stack2, g⟩
  · exact absurd hloop hne
  obtain ⟨dropped, f, b, bs, rest, e1, e2, e3, ⟨pre, e4, e5⟩, e6, e7⟩ := dfLoop_some _ _ _ hloop
  have hfmem : f ∈ stack1 := by
    rw [e1]
    exact List.mem_append.mpr (Or.inr (List.mem_cons_self _ _))
  have hfbr : (∀ x ∈ f.remaining_branches, x ∈ adjL m f.position) ∧ StackOK m rest f.position := by
    cases dropped with
    | nil =>
      rw [List.nil_append] at e1
      injection e1 with ef er
      have hp : f.position = pos := by rw [← ef]
      have hb : f.remaining_branches = (adjL m pos).reverse := by rw [← ef]
      constructor
      · intro x hx
        rw [hb] at hx
        rw [hp]
        exact List.mem_reverse.mp hx
      · rw [← er, hp]
        exact hinv.stackOK
    | cons d dropped' =>
      rw [List.cons_append] at e1
      injection e1 with ed etail
      have h0 := hinv.stackOK
      rw [etail] at h0
      exact stackOK_drop dropped' f rest pos h0
  have hbadj : b ∈ adjL m f.position := by
    refine hfbr.1 b ?_
    rw [e4]
    exact List.mem_append.mpr (Or.inr (List.mem_cons_self _ _))
  have hstack2OK : StackOK m stack2 b := by
    rw [e6]
    refine ⟨hbadj, ?_, hfbr.2⟩
    intro x hx
    refine hfbr.1 x ?_
    rw [e4]
    exact List.mem_append.mpr (Or.inr (List.mem_cons_of_mem _ hx))
  have hstack1vis : ∀ fr ∈ stack1, fr.position ∈ visited' := by
    intro fr hfr
    rcases List.mem_cons.mp hfr with rfl | hfr'
    · exact Finset.mem_insert_self _ _
    · exact Finset.mem_insert_of_mem (hinv.stackVis fr hfr')
  have hstack2vis : ∀ fr ∈ stack2, fr.position ∈ visited' := by
    rw [e6]
    intro fr hfr
    rcases List.mem_cons.mp hfr with rfl | hfr'
    · exact hstack1vis f hfmem
    · refine hstack1vis fr ?_
      rw [e1]
      exact List.mem_append.mpr (Or.inr (List.mem_cons_of_mem _ hfr'))
  have htIn : b ∈ rect m.width m.height := (hm.grid _ _ hbadj).2
  refine ⟨⟨visited', stack2⟩, g, b, ?_, rfl, hstack2OK, by rw [e6]; simp, ?_, e3, htIn, ?_⟩
  · show (match dfLoop visited' stack1 with
      | none => none
      | some (st2, path) => some ((⟨visited', st2⟩ : DepthFirst), path))
        = some ((⟨visited', stack2⟩ : DepthFirst), g)
    rw [hloop]
  · rw [e7, e6, List.map_reverse]
  · intro htne
    refine ⟨htIn, e3, htne, hendv', ?_, hstack2OK, hstack2vis, ?_⟩
    · exact Finset.insert_subset_iff.mpr ⟨hinv.posIn, hinv.vsub⟩
    · intro c hc b' hb'
      have hframe : ∀ fr ∈ stack1, ∀ x ∈ fr.remaining_branches,
          x ∈ visited' ∨ (∃ fr2 ∈ stack2, x ∈ fr2.remaining_branches) ∨ x = b := by
        intro fr hfr x hx
        rw [e1] at hfr
        rcases List.mem_append.mp hfr with hd | hfr2
        · exact Or.inl (e2 fr hd x hx)
        · rcases List.mem_cons.mp hfr2 with rfl | hrest
          · rw [e4] at hx
            rcases List.mem_append.mp hx with hpre | hbbs
            · exact Or.inl (e5 x hpre)
            · rcases List.mem_cons.mp hbbs with rfl | hbs
              · exact Or.inr (Or.inr rfl)
              · refine Or.inr (Or.inl ⟨⟨fr.position, bs⟩, ?_, hbs⟩)
                rw [e6]
                exact List.mem_cons_self _ _
          · refine Or.inr (Or.inl ⟨fr, ?_, hx⟩)
            rw [e6]
            exact List.mem_cons_of_mem _ hrest
      rcases Finset.mem_insert.mp hc with rfl | hc'
      · exact hframe _ (List.mem_cons_self _ _) b' (List.mem_reverse.mpr hb')
      · rcases hinv.cover c hc' b' hb' with h | ⟨fr, hfr, hbf⟩ | rfl
        · exact Or.inl (Finset.mem_insert_of_mem h)
        · exact hframe fr (List.mem_cons_of_mem _ hfr) b' hbf
        · exact Or.inl (Finset.mem_insert_self _ _)

end DFSRun

section DFSRunTermination

theorem runLoop_succ {σ : Type} (prog : σ → Pos → List Pos → Option (σ × List Pos))
    (m : Maze) (fuel : Nat) (s : σ) (pos : Pos) (acc : List (List Pos))
    (ps : List Pos) (hps : m.paths_from pos = some ps)
    (s' : σ) (g : List Pos) (hprog : prog s pos ps = some (s', g))
    (t : Pos) (hlast : g.getLast? = some t) :
    runLoop prog m (fuel + 1) s pos acc =
      if m.is_end t then .done (acc ++ [g])
      else runLoop prog m fuel s' t (acc ++ [g]) := by
  simp only [runLoop, hps, hprog, hlast]

theorem df_run {m : Maze} (hm : SolvableMaze m) :
    ∀ (k : Nat) (s : DepthFirst) (pos : Pos) (acc : List (List Pos)),
      DFInv m s pos → (rect m.width m.height \ s.visited).card ≤ k + 1 →
      ∃ gs : List (List Pos), gs ≠ [] ∧
        runLoop DepthFirst.progress m (k + 1) s pos acc = .done (acc ++ gs) ∧
        (∀ g ∈ gs, g ≠ [] ∧ g.head? = some m.start ∧
          List.Chain' (fun a b => b ∈ adjL m a) g) ∧
        (∃ g, gs.getLast? = some g ∧ g.getLast? = some m.endp) := by
  intro k
  induction k with
  | zero =>
    intro s pos acc hinv hcard
    exfalso
    have h2 : ({pos, m.endp} : Finset Pos) ⊆ rect m.width m.height \ s.visited := by
      intro x hx
      rcases Finset.mem_insert.mp hx with rfl | hx'
      · exact Finset.mem_sdiff.mpr ⟨hinv.posIn, hinv.posFresh⟩
      · rw [Finset.mem_singleton] at hx'
        subst hx'
        exact Finset.mem_sdiff.mpr ⟨hm.endIn, hinv.endFresh⟩
    have h3 := Finset.card_le_card h2
    rw [Finset.card_insert_of_not_mem (by rw [Finset.mem_singleton]; exact hinv.posNotEnd),
      Finset.card_singleton] at h3
    omega
  | succ k ih =>
    intro s pos acc hinv hcard
    obtain ⟨s2, g, t, hprog, hvis2, hOK2, hne2, hg, htf, htIn, hnext⟩ := df_step hm hinv
    have hpf : m.paths_from pos = some (adjL m pos) := by
      have h1 : (m.paths pos).isSome := (hm.dom pos).mpr hinv.posIn
      rcases hp : m.paths pos with _ | l
      · rw [hp] at h1
        cases h1
      · rw [Maze.paths_from, hp, adjL, hp]
        rfl
    have hchain := stackOK_chain (m := m) s2.stack t hOK2
    rw [← hg] at hchain
    have hglast : g.getLast? = some t := by
      rw [hg]
      exact List.getLast?_concat _
    have hgne : g ≠ [] := by
      rw [hg]
      simp
    rw [runLoop_succ DepthFirst.progress m (k + 1) s pos acc (adjL m pos) hpf s2 g hprog
      t hglast]
    by_cases hend : t = m.endp
    · have hise : m.is_end t = true := by
        rw [Maze.is_end]
        exact decide_eq_true hend.symm
      rw [hise, if_pos rfl]
      refine ⟨[g], by simp, rfl, ?_, g, rfl, by rw [hglast, hend]⟩
      intro g' hg'
      rcases List.mem_cons.mp hg' with rfl | h0
      · exact ⟨hgne, hchain.2, hchain.1⟩
      · cases h0
    · have hise : m.is_end t = false := by
        rw [Maze.is_end]
        exact decide_eq_false (fun h => hend h.symm)
      rw [hise, if_neg Bool.false_ne_true]
      have hcard2 : (rect m.width m.height \ s2.visited).card ≤ k + 1 := by
        rw [hvis2]
        have hpos : pos ∈ rect m.width m.height \ s.visited :=
          Finset.mem_sdiff.mpr ⟨hinv.posIn, hinv.posFresh⟩
        have he : rect m.width m.height \ insert pos s.visited
            = (rect m.width m.height \ s.visited).erase pos := by
          ext x
          simp only [Finset.mem_sdiff, Finset.mem_erase, Finset.mem_insert]
          tauto
        rw [he, Finset.card_erase_of_mem hpos]
        omega
      obtain ⟨gs', hne', heq', hall', g', hg'1, hg'2⟩ := ih s2 t (acc ++ [g]) (hnext hend) hcard2
      refine ⟨g :: gs', by simp, ?_, ?_, g', ?_, hg'2⟩
      · rw [heq', List.append_assoc, List.singleton_append]
      · intro g0 hg0
        rcases List.mem_cons.mp hg0 with rfl | h0
        · exact ⟨hgne, hchain.2, hchain.1⟩
        · exact hall' g0 h0
      · cases gs' with
        | nil => exact absurd rfl hne'
        | cons a t2 =>
          rw [List.getLast?_cons_cons]
          exact hg'1

end DFSRunTermination

section BFSTree

/-- Reachability along passages staying inside `S` (every intermediate target in `S`). -/
def ReachIn (m : Maze) (S : Finset Pos) : Pos → Pos → Prop :=
  Relation.ReflTransGen (fun x y => y ∈ adjL m x ∧ y ∈ S)

theorem reachIn_walk {m : Maze} (hm : SolvableMaze m) {S : Finset Pos} {a b : Pos}
    (h : ReachIn m S a b) (ha : a ∈ S) :
    ∃ wk : (pG m).Walk a b, ∀ x ∈ wk.support, x ∈ S := by
  induction h with
  | refl =>
    refine ⟨.nil, ?_⟩
    intro x hx
    rw [SimpleGraph.Walk.support_nil, List.mem_singleton] at hx
    subst hx
    exact ha
  | tail hbc hstep ih =>
    obtain ⟨wk, hwk⟩ := ih
    have hadj := pG_adj_of_adjL hm hstep.1
    refine ⟨wk.concat hadj, ?_⟩
    intro x hx
    rw [SimpleGraph.Walk.support_concat] at hx
    rw [List.concat_eq_append] at hx
    rcases List.mem_append.mp hx with h2 | h2
    · exact hwk x h2
    · rw [List.mem_singleton] at h2
      subst h2
      exact hstep.2

/-- In an acyclic passage graph, a cell outside an internally connected region
(containing the start) has at most one passage-neighbour inside the region. -/
theorem tree_unique_attach {m : Maze} (hm : SolvableMaze m) {S : Finset Pos}
    (hSconn : ∀ v ∈ S, ReachIn m S m.start v) (hstart : m.start ∈ S)
    {t n1 n2 : Pos} (ht : t ∉ S) (h1 : n1 ∈ adjL m t) (h2 : n2 ∈ adjL m t)
    (hn1 : n1 ∈ S) (hn2 : n2 ∈ S) : n1 = n2 := by
  by_contra hne
  obtain ⟨w1, hw1⟩ := reachIn_walk hm (hSconn n1 hn1) hstart
  obtain ⟨w2, hw2⟩ := reachIn_walk hm (hSconn n2 hn2) hstart
  have hwsupp : ∀ x ∈ (w1.reverse.append w2).support, x ∈ S := by
    intro x hx
    rw [SimpleGraph.Walk.support_append] at hx
    rcases List.mem_append.mp hx with h | h
    · rw [SimpleGraph.Walk.support_reverse] at h
      exact hw1 x (List.mem_reverse.mp h)
    · exact hw2 x (List.mem_of_mem_tail h)
  have hpsupp : ∀ x ∈ (w1.reverse.append w2).toPath.1.support, x ∈ S := fun x hx =>
    hwsupp x (SimpleGraph.Walk.support_toPath_subset _ hx)
  have htp : t ∉ (w1.reverse.append w2).toPath.1.support := fun hmem => ht (hpsupp t hmem)
  have ha1 : (pG m).Adj t n1 := ⟨fun he => ht (he ▸ hn1), h1, hm.sym t n1 h1⟩
  have ha2 : (pG m).Adj t n2 := ⟨fun he => ht (he ▸ hn2), h2, hm.sym t n2 h2⟩
  have hqpath : (SimpleGraph.Walk.cons ha2 (w1.reverse.append w2).toPath.1.reverse).IsPath := by
    refine SimpleGraph.Walk.IsPath.cons ?_ ?_
    · exact (w1.reverse.append w2).toPath.2.reverse
    · rw [SimpleGraph.Walk.support_reverse]
      intro hmem
      exact htp (List.mem_reverse.mp hmem)
  have hcyc : (SimpleGraph.Walk.cons ha1
      (SimpleGraph.Walk.cons ha2 (w1.reverse.append w2).toPath.1.reverse).reverse).IsCycle := by
    rw [SimpleGraph.Walk.cons_isCycle_iff]
    constructor
    · exact hqpath.reverse
    · rw [SimpleGraph.Walk.edges_reverse, List.mem_reverse, SimpleGraph.Walk.edges_cons]
      intro hmem
      rcases List.mem_cons.mp hmem with he | he
      · exact hne (Sym2.congr_right.mp he)
      · exact htp (List.mem_reverse.mp (by
          rw [← SimpleGraph.Walk.support_reverse]
          exact SimpleGraph.Walk.fst_mem_support_of_mem_edges _ he))
  exact hm.acyc _ hcyc

end BFSTree

section BFSRun

theorem mem_dropLast_or_getLast {α : Type} (l : List α) (t : α) (hl : l.getLast? = some t) :
    ∀ x ∈ l, x ∈ l.dropLast ∨ x = t := by
  intro x hx
  have hne : l ≠ [] := by
    intro h0
    rw [h0] at hl
    cases hl
  have e := List.dropLast_append_getLast hne
  rw [← e] at hx
  rcases List.mem_append.mp hx with h | h
  · exact Or.inl h
  · rw [List.mem_singleton] at h
    right
    rw [h]
    have := List.getLast?_eq_getLast l hne
    rw [hl] at this
    injection this with h2
    exact h2.symm

theorem getLast?_cons_of_ne_nil {α : Type} (a : α) (l : List α) (h : l ≠ []) :
    (a :: l).getLast? = l.getLast? := by
  cases l with
  | nil => exact absurd rfl h
  | cons b t => rw [List.getLast?_cons_cons]

theorem chain_getLast_adj {m : Maze} :
    ∀ (l : List Pos) (a t : Pos),
      List.Chain' (fun x y => y ∈ adjL m x) (a :: l) → l ≠ [] →
      (a :: l).getLast? = some t →
      ∃ prev ∈ (a :: l).dropLast, t ∈ adjL m prev := by
  intro l
  induction l with
  | nil => intro a t _ h; exact absurd rfl h
  | cons b l' ih =>
    intro a t hchain _ hlast
    cases l' with
    | nil =>
      rw [List.getLast?_cons_cons] at hlast
      injection hlast with h2
      subst h2
      exact ⟨a, List.mem_cons_self _ _, (List.chain'_cons.mp hchain).1⟩
    | cons c l'' =>
      have hchain' := (List.chain'_cons.mp hchain).2
      rw [List.getLast?_cons_cons] at hlast
      obtain ⟨prev, hmem, hadj⟩ := ih b t hchain' (by simp) hlast
      exact ⟨prev, List.mem_cons_of_mem _ hmem, hadj⟩

theorem chain_to_reachIn {m : Maze} {S : Finset Pos} :
    ∀ (l : List Pos) (a t : Pos),
      List.Chain' (fun x y => y ∈ adjL m x) (a :: l) →
      (∀ x ∈ l, x ∈ S) → (a :: l).getLast? = some t → ReachIn m S a t := by
  intro l
  induction l with
  | nil =>
    intro a t _ _ hlast
    injection hlast with h2
    subst h2
    exact Relation.ReflTransGen.refl
  | cons b l' ih =>
    intro a t hchain hS hlast
    rw [List.getLast?_cons_cons] at hlast
    refine Relation.ReflTransGen.head
      ⟨(List.chain'_cons.mp hchain).1, hS b (List.mem_cons_self _ _)⟩ ?_
    exact ih b t (List.chain'_cons.mp hchain).2 (fun x hx => hS x (List.mem_cons_of_mem _ hx))
      hlast

/-- Invariant of the breadth-first executor run, between two `progress` calls:
`pos` is the fresh in-bounds cell at the tail of the last returned path, the
queue holds start-rooted candidate paths with visited interiors and pairwise
distinct fresh tails, the visited region is internally connected from the
start, and every passage out of it is visited, pending in the queue, or `pos`. -/
structure BFInv (m : Maze) (s : BreathFirst) (pos : Pos) : Prop where
  posIn : pos ∈ rect m.width m.height
  posFresh : pos ∉ s.visited
  posNotEnd : pos ≠ m.endp
  endFresh : m.endp ∉ s.visited
  vsub : s.visited ⊆ rect m.width m.height
  lastChain : List.Chain' (fun a b => b ∈ adjL m a) (m.start :: s.last_path)
  lastLast : (m.start :: s.last_path).getLast? = some pos
  lastPre : ∀ x ∈ (m.start :: s.last_path).dropLast, x ∈ s.visited
  qNe : ∀ q ∈ s.paths, q ≠ []
  qChain : ∀ q ∈ s.paths, List.Chain' (fun a b => b ∈ adjL m a) (m.start :: q)
  qPre : ∀ q ∈ s.paths, ∀ x ∈ (m.start :: q).dropLast, x ∈ s.visited
  qFresh : ∀ q ∈ s.paths, ∀ t, q.getLast? = some t → t ∉ s.visited ∧ t ≠ pos
  qNodup : List.Pairwise (fun q1 q2 => q1.getLast? ≠ q2.getLast?) s.paths
  vconn : ∀ v ∈ s.visited, ReachIn m s.visited m.start v
  cover : ∀ c ∈ s.visited, ∀ b ∈ adjL m c,
    b ∈ s.visited ∨ (∃ q ∈ s.paths, q.getLast? = some b) ∨ b = pos

theorem bfInv_init {m : Maze} (hm : SolvableMaze m) (hse : m.start ≠ m.endp) :
    BFInv m BreathFirst.new m.start :=
  ⟨hm.startIn, Finset.not_mem_empty _, hse, Finset.not_mem_empty _, Finset.empty_subset _,
    List.chain'_singleton _, rfl, (by intro x hx; cases hx),
    (by intro q hq; cases hq), (by intro q hq; cases hq), (by intro q hq; cases hq),
    (by intro q hq; cases hq), List.Pairwise.nil,
    (by intro v hv; exact absurd hv (Finset.not_mem_empty v)),
    (by intro c hc; exact absurd hc (Finset.not_mem_empty c))⟩

end BFSRun

section BFSStep

theorem bf_step {m : Maze} (hm : SolvableMaze m) {s : BreathFirst} {pos : Pos}
    (hinv : BFInv m s pos) :
    ∃ (s2 : BreathFirst) (g : List Pos) (t : Pos),
      BreathFirst.progress s pos (adjL m pos) = some (s2, g) ∧
      g ≠ [] ∧ g.getLast? = some t ∧
      List.Chain' (fun a b => b ∈ adjL m a) (m.start :: g) ∧
      t ∉ insert pos s.visited ∧ t ∈ rect m.width m.height ∧
      s2.visited = insert pos s.visited ∧
      (t ≠ m.endp → BFInv m s2 t) := by
  set visited' := insert pos s.visited with hv'
  set entries := ((adjL m pos).filter (fun b => decide (b ∉ visited'))).map
    (fun b => s.last_path ++ [b]) with hent
  set queue := s.paths ++ entries with hq
  have hstartv' : m.start ∈ visited' := by
    cases hlp : s.last_path with
    | nil =>
      have h0 := hinv.lastLast
      rw [hlp] at h0
      simp only [List.getLast?_singleton, Option.some.injEq] at h0
      rw [h0]
      exact Finset.mem_insert_self _ _
    | cons b lp' =>
      have h0 : m.start ∈ (m.start :: s.last_path).dropLast := by
        rw [hlp]
        exact List.mem_cons_self _ _
      exact Finset.mem_insert_of_mem (hinv.lastPre _ h0)
  have hendv' : m.endp ∉ visited' := by
    intro hmem
    rcases Finset.mem_insert.mp hmem with h | h
    · exact hinv.posNotEnd h.symm
    · exact hinv.endFresh h
  have hvconn' : ∀ v ∈ visited', ReachIn m visited' m.start v := by
    intro v hv
    rcases Finset.mem_insert.mp hv with rfl | hv'
    · refine chain_to_reachIn s.last_path m.start v hinv.lastChain ?_ hinv.lastLast
      intro x hx
      rcases mem_dropLast_or_getLast _ _ hinv.lastLast x (List.mem_cons_of_mem _ hx) with h | h
      · exact Finset.mem_insert_of_mem (hinv.lastPre x h)
      · rw [h]
        exact Finset.mem_insert_self _ _
    · exact Relation.ReflTransGen.mono
        (fun a b hab => ⟨hab.1, Finset.mem_insert_of_mem hab.2⟩) (hinv.vconn v hv')
  have hentry : ∀ e ∈ entries, ∃ b, b ∈ adjL m pos ∧ b ∉ visited' ∧ e = s.last_path ++ [b] := by
    intro e he
    rw [hent] at he
    obtain ⟨b, hb, he2⟩ := List.mem_map.mp he
    rw [List.mem_filter] at hb
    exact ⟨b, hb.1, of_decide_eq_true hb.2, he2.symm⟩
  have hqfacts : ∀ q ∈ queue, q ≠ [] ∧ List.Chain' (fun a b => b ∈ adjL m a) (m.start :: q) ∧
      (∀ x ∈ (m.start :: q).dropLast, x ∈ visited') ∧
      (∀ t', q.getLast? = some t' → t' ∉ visited') := by
    intro q hq0
    rcases List.mem_append.mp hq0 with hold | hnew
    · refine ⟨hinv.qNe q hold, hinv.qChain q hold, ?_, ?_⟩
      · intro x hx
        exact Finset.mem_insert_of_mem (hinv.qPre q hold x hx)
      · intro t' ht'
        have h2 := hinv.qFresh q hold t' ht'
        intro hmem
        rcases Finset.mem_insert.mp hmem with h | h
        · exact h2.2 h
        · exact h2.1 h
    · obtain ⟨b, hbadj, hbf, rfl⟩ := hentry q hnew
      refine ⟨by simp, ?_, ?_, ?_⟩
      · have e : m.start :: (s.last_path ++ [b]) = (m.start :: s.last_path) ++ [b] := rfl
        rw [e, List.chain'_append]
        refine ⟨hinv.lastChain, List.chain'_singleton _, ?_⟩
        intro x hx y hy
        simp only [Option.mem_def] at hx hy
        rw [hinv.lastLast] at hx
        injection hx with hx'
        injection hy with hy'
        rw [← hx', ← hy']
        exact hbadj
      · have e : (m.start :: (s.last_path ++ [b])).dropLast = m.start :: s.last_path := by
          have e2 : m.start :: (s.last_path ++ [b]) = (m.start :: s.last_path) ++ [b] := rfl
          rw [e2, List.dropLast_concat]
        rw [e]
        intro x hx
        rcases mem_dropLast_or_getLast _ _ hinv.lastLast x hx with h | h
        · exact Finset.mem_insert_of_mem (hinv.lastPre x h)
        · rw [h]
          exact Finset.mem_insert_self _ _
      · intro t' ht'
        rw [List.getLast?_concat] at ht'
        injection ht' with ht''
        rw [← ht'']
        exact hbf
  have hqrect : ∀ q ∈ queue, ∀ t', q.getLast? = some t' → t' ∈ rect m.width m.height := by
    intro q hq0 t' ht'
    obtain ⟨hne0, hchain0, _, _⟩ := hqfacts q hq0
    have hlast : (m.start :: q).getLast? = some t' := by
      rw [getLast?_cons_of_ne_nil _ _ hne0]
      exact ht'
    obtain ⟨prev, _, hprevadj⟩ := chain_getLast_adj q m.start t' hchain0 hne0 hlast
    exact (hm.grid _ _ hprevadj).2
  have hqnodup : List.Pairwise (fun q1 q2 => q1.getLast? ≠ q2.getLast?) queue := by
    rw [hq, List.pairwise_append]
    refine ⟨hinv.qNodup, ?_, ?_⟩
    · rw [hent, List.pairwise_map]
      have hnd : ((adjL m pos).filter (fun b => decide (b ∉ visited'))).Nodup :=
        (hm.nd pos).filter _
      refine List.Pairwise.imp ?_ hnd
      intro a b hab
      rw [List.getLast?_concat, List.getLast?_concat]
      intro hc
      injection hc with hc'
      exact hab hc'
    · intro q1 hq1 q2 hq2
      obtain ⟨b, hbadj, hbf, rfl⟩ := hentry q2 hq2
      rw [List.getLast?_concat]
      intro hc
      have hfr := hinv.qFresh q1 hq1 b hc
      obtain ⟨hne1, hchain1, _, _⟩ := hqfacts q1 (List.mem_append.mpr (Or.inl hq1))
      have hlast1 : (m.start :: q1).getLast? = some b := by
        rw [getLast?_cons_of_ne_nil _ _ hne1]
        exact hc
      obtain ⟨prev, hprevmem, hprevadj⟩ := chain_getLast_adj q1 m.start b hchain1 hne1 hlast1
      have hprevvis : prev ∈ s.visited := hinv.qPre q1 hq1 prev hprevmem
      have hbv' : b ∉ visited' := by
        intro hmem
        rcases Finset.mem_insert.mp hmem with h2 | h2
        · exact hfr.2 h2
        · exact hfr.1 h2
      have heq := tree_unique_attach hm hvconn' hstartv' hbv'
        (hm.sym prev b hprevadj) (hm.sym pos b hbadj)
        (Finset.mem_insert_of_mem hprevvis) (Finset.mem_insert_self _ _)
      exact hinv.posFresh (heq ▸ hprevvis)
  have hqne : queue ≠ [] := by
    intro h0
    rw [hq] at h0
    obtain ⟨hp0, he0⟩ := List.append_eq_nil.mp h0
    have hposcl : ∀ b ∈ adjL m pos, b ∈ visited' := by
      intro b hb
      by_contra hbv
      have hmem : (s.last_path ++ [b]) ∈ entries := by
        rw [hent]
        exact List.mem_map.mpr ⟨b, List.mem_filter.mpr ⟨hb, decide_eq_true hbv⟩, rfl⟩
      rw [he0] at hmem
      cases hmem
    have hclosed : ∀ c ∈ visited', ∀ b ∈ adjL m c, b ∈ visited' := by
      intro c hc b hb
      rcases Finset.mem_insert.mp hc with rfl | hc'
      · exact hposcl b hb
      · rcases hinv.cover c hc' b hb with h2 | ⟨q2, hq2, _⟩ | rfl
        · exact Finset.mem_insert_of_mem h2
        · rw [hp0] at hq2
          cases hq2
        · exact Finset.mem_insert_self _ _
    exact hendv' (reach_mem_closed hclosed hstartv' (hm.conn m.endp hm.endIn))
  rcases hqd : queue with _ | ⟨p, rest⟩
  · exact absurd hqd hqne
  have hpq : p ∈ queue := by
    rw [hqd]
    exact List.mem_cons_self _ _
  obtain ⟨hpne, hpchain, hppre, hpfresh⟩ := hqfacts p hpq
  rcases hpt : p.getLast? with _ | t
  · exfalso
    have h2 := List.getLast?_isSome.mpr hpne
    rw [hpt] at h2
    cases h2
  refine ⟨⟨rest, visited', p⟩, p, t, ?_, hpne, hpt, hpchain, hpfresh t hpt,
    hqrect p hpq t hpt, rfl, ?_⟩
  · show (match queue with
      | [] => none
      | p :: rest => some ((⟨rest, visited', p⟩ : BreathFirst), p)) = some (⟨rest, visited', p⟩, p)
    rw [hqd]
  · intro htne
    have hrestq : ∀ q ∈ rest, q ∈ queue := by
      intro q hq2
      rw [hqd]
      exact List.mem_cons_of_mem _ hq2
    have hqnodup2 := hqnodup
    rw [hqd] at hqnodup2
    have hrestnodup := (List.pairwise_cons.mp hqnodup2).2
    have hheaddiff : ∀ q ∈ rest, q.getLast? ≠ p.getLast? :=
      fun q hq2 hc => ((List.pairwise_cons.mp hqnodup2).1 q hq2) hc.symm
    refine ⟨hqrect p hpq t hpt, hpfresh t hpt, htne, hendv',
      Finset.insert_subset_iff.mpr ⟨hinv.posIn, hinv.vsub⟩, hpchain, ?_, hppre,
      ?_, ?_, ?_, ?_, hrestnodup, hvconn', ?_⟩
    · rw [getLast?_cons_of_ne_nil _ _ hpne]
      exact hpt
    · intro q hq2
      exact (hqfacts q (hrestq q hq2)).1
    · intro q hq2
      exact (hqfacts q (hrestq q hq2)).2.1
    · intro q hq2
      exact (hqfacts q (hrestq q hq2)).2.2.1
    · intro q hq2 t' ht'
      refine ⟨?_, ?_⟩
      · intro hmem
        rcases Finset.mem_insert.mp hmem with h2 | h2
        · exact ((hqfacts q (hrestq q hq2)).2.2.2 t' ht') (h2 ▸ Finset.mem_insert_self _ _)
        · exact ((hqfacts q (hrestq q hq2)).2.2.2 t' ht') (Finset.mem_insert_of_mem h2)
      · intro he
        refine hheaddiff q hq2 ?_
        rw [ht', hpt, he]
    · intro c hc b' hb'
      have hqloc2 : ∀ q0 ∈ queue, q0.getLast? = some b' →
          (∃ q ∈ rest, q.getLast? = some b') ∨ b' = t := by
        intro q0 hq0 hb0
        rw [hqd] at hq0
        rcases List.mem_cons.mp hq0 with rfl | hq2
        · right
          rw [hpt] at hb0
          injection hb0 with h2
          exact h2.symm
        · exact Or.inl ⟨q0, hq2, hb0⟩
      rcases Finset.mem_insert.mp hc with rfl | hc'
      · by_cases hbv : b' ∈ visited'
        · exact Or.inl hbv
        · have hmem : (s.last_path ++ [b']) ∈ queue := by
            rw [hq]
            refine List.mem_append.mpr (Or.inr ?_)
            rw [hent]
            exact List.mem_map.mpr ⟨b', List.mem_filter.mpr ⟨hb', decide_eq_true hbv⟩, rfl⟩
          rcases hqloc2 _ hmem (List.getLast?_concat _) with h2 | h2
          · exact Or.inr (Or.inl h2)
          · exact Or.inr (Or.inr h2)
      · rcases hinv.cover c hc' b' hb' with h2 | ⟨q0, hq0, hb0⟩ | rfl
        · exact Or.inl (Finset.mem_insert_of_mem h2)
        · rcases hqloc2 q0 (List.mem_append.mpr (Or.inl hq0)) hb0 with h3 | h3
          · exact Or.inr (Or.inl h3)
          · exact Or.inr (Or.inr h3)
        · exact Or.inl (Finset.mem_insert_self _ _)

end BFSStep

section BFSRunTermination

theorem bf_run {m : Maze} (hm : SolvableMaze m) :
    ∀ (k : Nat) (s : BreathFirst) (pos : Pos) (acc : List (List Pos)),
      BFInv m s pos → (rect m.width m.height \ s.visited).card ≤ k + 1 →
      ∃ gs : List (List Pos), gs ≠ [] ∧
        runLoop BreathFirst.progress m (k + 1) s pos acc = .done (acc ++ gs) ∧
        (∀ g ∈ gs, g ≠ [] ∧
          List.Chain' (fun a b => b ∈ adjL m a) (m.start :: g)) ∧
        (∃ g, gs.getLast? = some g ∧ g.getLast? = some m.endp) := by
  intro k
  induction k with
  | zero =>
    intro s pos acc hinv hcard
    exfalso
    have h2 : ({pos, m.endp} : Finset Pos) ⊆ rect m.width m.height \ s.visited := by
      intro x hx
      rcases Finset.mem_insert.mp hx with rfl | hx'
      · exact Finset.mem_sdiff.mpr ⟨hinv.posIn, hinv.posFresh⟩
      · rw [Finset.mem_singleton] at hx'
        subst hx'
        exact Finset.mem_sdiff.mpr ⟨hm.endIn, hinv.endFresh⟩
    have h3 := Finset.card_le_card h2
    rw [Finset.card_insert_of_not_mem (by rw [Finset.mem_singleton]; exact hinv.posNotEnd),
      Finset.card_singleton] at h3
    omega
  | succ k ih =>
    intro s pos acc hinv hcard
    obtain ⟨s2, g, t, hprog, hgne, hglast, hchain, htf, htIn, hvis2, hnext⟩ := bf_step hm hinv
    have hpf : m.paths_from pos = some (adjL m pos) := by
      have h1 : (m.paths pos).isSome := (hm.dom pos).mpr hinv.posIn
      rcases hp : m.paths pos with _ | l
      · rw [hp] at h1
        cases h1
      · rw [Maze.paths_from, hp, adjL, hp]
        rfl
    rw [runLoop_succ BreathFirst.progress m (k + 1) s pos acc (adjL m pos) hpf s2 g hprog
      t hglast]
    by_cases hend : t = m.endp
    · have hise : m.is_end t = true := by
        rw [Maze.is_end]
        exact decide_eq_true hend.symm
      rw [hise, if_pos rfl]
      refine ⟨[g], by simp, rfl, ?_, g, rfl, by rw [hglast, hend]⟩
      intro g' hg'
      rcases List.mem_cons.mp hg' with rfl | h0
      · exact ⟨hgne, hchain⟩
      · cases h0
    · have hise : m.is_end t = false := by
        rw [Maze.is_end]
        exact decide_eq_false (fun h => hend h.symm)
      rw [hise, if_neg Bool.false_ne_true]
      have hcard2 : (rect m.width m.height \ s2.visited).card ≤ k + 1 := by
        rw [hvis2]
        have hpos : pos ∈ rect m.width m.height \ s.visited :=
          Finset.mem_sdiff.mpr ⟨hinv.posIn, hinv.posFresh⟩
        have he : rect m.width m.height \ insert pos s.visited
            = (rect m.width m.height \ s.visited).erase pos := by
          ext x
          simp only [Finset.mem_sdiff, Finset.mem_erase, Finset.mem_insert]
          tauto
        rw [he, Finset.card_erase_of_mem hpos]
        omega
      obtain ⟨gs', hne', heq', hall', g', hg'1, hg'2⟩ := ih s2 t (acc ++ [g]) (hnext hend) hcard2
      refine ⟨g :: gs', by simp, ?_, ?_, g', ?_, hg'2⟩
      · rw [heq', List.append_assoc, List.singleton_append]
      · intro g0 hg0
        rcases List.mem_cons.mp hg0 with rfl | h0
        · exact ⟨hgne, hchain⟩
        · exact hall' g0 h0
      · cases gs' with
        | nil => exact absurd rfl hne'
        | cons a t2 =>
          rw [List.getLast?_cons_cons]
          exact hg'1

end BFSRunTermination

section TraceLemmas

theorem df_trace {m : Maze} (hm : SolvableMaze m) :
    ∀ (fuel : Nat) (s : DepthFirst) (pos : Pos) (acc : List (List Pos)),
      DFInv m s pos →
      (∀ g ∈ acc, g ≠ [] ∧ g.head? = some m.start ∧
        List.Chain' (fun a b => b ∈ adjL m a) g) →
      (∀ g ∈ acc, ∀ t0, g.getLast? = some t0 → t0 ∈ insert pos s.visited) →
      List.Pairwise (fun g1 g2 => g1.getLast? ≠ g2.getLast?) acc →
      (∀ g ∈ (runLoop DepthFirst.progress m fuel s pos acc).guesses,
        g ≠ [] ∧ g.head? = some m.start ∧
        List.Chain' (fun a b => b ∈ adjL m a) g) ∧
      List.Pairwise (fun g1 g2 => g1.getLast? ≠ g2.getLast?)
        (runLoop DepthFirst.progress m fuel s pos acc).guesses := by
  intro fuel
  induction fuel with
  | zero =>
    intro s pos acc _ hacc _ haccnd
    exact ⟨hacc, haccnd⟩
  | succ n ih =>
    intro s pos acc hinv hacc hacc2 haccnd
    obtain ⟨s2, g, t, hprog, hvis2, hOK2, hne2, hg, htf, htIn, hnext⟩ := df_step hm hinv
    have hpf : m.paths_from pos = some (adjL m pos) := by
      have h1 : (m.paths pos).isSome := (hm.dom pos).mpr hinv.posIn
      rcases hp : m.paths pos with _ | l
      · rw [hp] at h1
        cases h1
      · rw [Maze.paths_from, hp, adjL, hp]
        rfl
    have hchain := stackOK_chain (m := m) s2.stack t hOK2
    rw [← hg] at hchain
    have hglast : g.getLast? = some t := by
      rw [hg]
      exact List.getLast?_concat _
    have hgne : g ≠ [] := by
      rw [hg]
      simp
    have haccg : ∀ g0 ∈ acc ++ [g], g0 ≠ [] ∧ g0.head? = some m.start ∧
        List.Chain' (fun a b => b ∈ adjL m a) g0 := by
      intro g0 hg0
      rcases List.mem_append.mp hg0 with h | h
      · exact hacc g0 h
      · rw [List.mem_singleton] at h
        subst h
        exact ⟨hgne, hchain.2, hchain.1⟩
    have haccgnd : List.Pairwise (fun g1 g2 => g1.getLast? ≠ g2.getLast?) (acc ++ [g]) := by
      rw [List.pairwise_append]
      refine ⟨haccnd, List.pairwise_singleton _ _, ?_⟩
      intro g1 hg1 g2 hg2
      rw [List.mem_singleton] at hg2
      subst hg2
      intro hc
      rcases hgl1 : g1.getLast? with _ | t1
      · rw [hgl1, hglast] at hc
        cases hc
      · have hmem := hacc2 g1 hg1 t1 hgl1
        rw [hgl1, hglast] at hc
        injection hc with hc'
        subst hc'
        exact htf hmem
    rw [runLoop_succ DepthFirst.progress m n s pos acc (adjL m pos) hpf s2 g hprog t hglast]
    by_cases hend : t = m.endp
    · have hise : m.is_end t = true := by
        rw [Maze.is_end]
        exact decide_eq_true hend.symm
      rw [hise, if_pos rfl]
      exact ⟨haccg, haccgnd⟩
    · have hise : m.is_end t = false := by
        rw [Maze.is_end]
        exact decide_eq_false (fun h => hend h.symm)
      rw [hise, if_neg Bool.false_ne_true]
      refine ih s2 t (acc ++ [g]) (hnext hend) haccg ?_ haccgnd
      intro g0 hg0 t0 ht0
      rcases List.mem_append.mp hg0 with h | h
      · have hmem := hacc2 g0 h t0 ht0
        rw [hvis2]
        exact Finset.mem_insert_of_mem hmem
      · rw [List.mem_singleton] at h
        subst h
        rw [hglast] at ht0
        injection ht0 with h2
        subst h2
        exact Finset.mem_insert_self _ _

theorem bf_trace {m : Maze} (hm : SolvableMaze m) :
    ∀ (fuel : Nat) (s : BreathFirst) (pos : Pos) (acc : List (List Pos)),
      BFInv m s pos →
      (∀ g ∈ acc, g ≠ [] ∧
        List.Chain' (fun a b => b ∈ adjL m a) (m.start :: g)) →
      (∀ g ∈ acc, ∀ t0, g.getLast? = some t0 → t0 ∈ insert pos s.visited) →
      List.Pairwise (fun g1 g2 => g1.getLast? ≠ g2.getLast?) acc →
      (∀ g ∈ (runLoop BreathFirst.progress m fuel s pos acc).guesses,
        g ≠ [] ∧ List.Chain' (fun a b => b ∈ adjL m a) (m.start :: g)) ∧
      List.Pairwise (fun g1 g2 => g1.getLast? ≠ g2.getLast?)
        (runLoop BreathFirst.progress m fuel s pos acc).guesses := by
  intro fuel
  induction fuel with
  | zero =>
    intro s pos acc _ hacc _ haccnd
    exact ⟨hacc, haccnd⟩
  | succ n ih =>
    intro s pos acc hinv hacc hacc2 haccnd
    obtain ⟨s2, g, t, hprog, hgne, hglast, hchain, htf, htIn, hvis2, hnext⟩ := bf_step hm hinv
    have hpf : m.paths_from pos = some (adjL m pos) := by
      have h1 : (m.paths pos).isSome := (hm.dom pos).mpr hinv.posIn
      rcases hp : m.paths pos with _ | l
      · rw [hp] at h1
        cases h1
      · rw [Maze.paths_from, hp, adjL, hp]
        rfl
    have haccg : ∀ g0 ∈ acc ++ [g], g0 ≠ [] ∧
        List.Chain' (fun a b => b ∈ adjL m a) (m.start :: g0) := by
      intro g0 hg0
      rcases List.mem_append.mp hg0 with h | h
      · exact hacc g0 h
      · rw [List.mem_singleton] at h
        subst h
        exact ⟨hgne, hchain⟩
    have haccgnd : List.Pairwise (fun g1 g2 => g1.getLast? ≠ g2.getLast?) (acc ++ [g]) := by
      rw [List.pairwise_append]
      refine ⟨haccnd, List.pairwise_singleton _ _, ?_⟩
      intro g1 hg1 g2 hg2
      rw [List.mem_singleton] at hg2
      subst hg2
      intro hc
      rcases hgl1 : g1.getLast? with _ | t1
      · rw [hgl1, hglast] at hc
        cases hc
      · have hmem := hacc2 g1 hg1 t1 hgl1
        rw [hgl1, hglast] at hc
        injection hc with hc'
        subst hc'
        exact htf hmem
    rw [runLoop_succ BreathFirst.progress m n s pos acc (adjL m pos) hpf s2 g hprog t hglast]
    by_cases hend : t = m.endp
    · have hise : m.is_end t = true := by
        rw [Maze.is_end]
        exact decide_eq_true hend.symm
      rw [hise, if_pos rfl]
      exact ⟨haccg, haccgnd⟩
    · have hise : m.is_end t = false := by
        rw [Maze.is_end]
        exact decide_eq_false (fun h => hend h.symm)
      rw [hise, if_neg Bool.false_ne_true]
      refine ih s2 t (acc ++ [g]) (hnext hend) haccg ?_ haccgnd
      intro g0 hg0 t0 ht0
      rcases List.mem_append.mp hg0 with h | h
      · have hmem := hacc2 g0 h t0 ht0
        rw [hvis2]
        exact Finset.mem_insert_of_mem hmem
      · rw [List.mem_singleton] at h
        subst h
        rw [hglast] at ht0
        injection ht0 with h2
        subst h2
        exact Finset.mem_insert_self _ _

theorem bfs_head_ne_start {m : Maze} (hm : SolvableMaze m) {g : List Pos} (hne : g ≠ [])
    (hch : List.Chain' (fun a b => b ∈ adjL m a) (m.start :: g)) :
    g.head? ≠ some m.start := by
  cases g with
  | nil => exact absurd rfl hne
  | cons hd tl =>
    have h1 := (List.chain'_cons.mp hch).1
    intro hc
    injection hc with hc'
    exact (adjL_ne hm h1) hc'

end TraceLemmas

section ClaimC2

/-- C2 counterexample — on the maze generated for a 1×1 grid (whose start
equals its end), `Executor::run` never reaches the DONE state for either
algorithm and any step budget: the first `progress` call already fails, so the
run does not terminate with a final guess at the end cell. -/
theorem C2_one_by_one_not_done :
    (∀ (fuel : Nat) (gs : List (List Pos)),
      Executor.run DepthFirst.progress maze1x1 DepthFirst.new fuel ≠ .done gs) ∧
    (∀ (fuel : Nat) (gs : List (List Pos)),
      Executor.run BreathFirst.progress maze1x1 BreathFirst.new fuel ≠ .done gs) := by
  constructor
  · intro fuel gs h
    cases fuel with
    | zero => exact RunResult.noConfusion h
    | succ n =>
      have e : Executor.run DepthFirst.progress maze1x1 DepthFirst.new (n + 1) =
          .failProgress [] := rfl
      rw [e] at h
      cases h
  · intro fuel gs h
    cases fuel with
    | zero => exact RunResult.noConfusion h
    | succ n =>
      have e : Executor.run BreathFirst.progress maze1x1 BreathFirst.new (n + 1) =
          .failProgress [] := rfl
      rw [e] at h
      cases h

/-- C2 (amended: generated mazes with at least two cells) — for every w,h ≥ 1
with w*h ≥ 2 and every permutation shuffle oracle, running the executor on the
generated maze with either algorithm terminates in the DONE state within
w*h progress calls, and the last position of the final returned guess is the
maze's end cell. -/
theorem C2_executor_terminates_at_end {w h : Int} (hw : 1 ≤ w) (hh : 1 ≤ h)
    (hwh : 2 ≤ w * h) (shuffle : Nat → List Pos → List Pos)
    (hshuf : ∀ (i : Nat) (l : List Pos), (shuffle i l).Perm l) :
    (∃ gs : List (List Pos), gs ≠ [] ∧
      Executor.run DepthFirst.progress (SimpleGenerator.generate w h shuffle)
        DepthFirst.new (w.toNat * h.toNat) = .done gs ∧
      ∃ g, gs.getLast? = some g ∧
        g.getLast? = some (SimpleGenerator.generate w h shuffle).endp) ∧
    (∃ gs : List (List Pos), gs ≠ [] ∧
      Executor.run BreathFirst.progress (SimpleGenerator.generate w h shuffle)
        BreathFirst.new (w.toNat * h.toNat) = .done gs ∧
      ∃ g, gs.getLast? = some g ∧
        g.getLast? = some (SimpleGenerator.generate w h shuffle).endp) := by
  obtain ⟨hsolv, hwid, hhei, hstart, hend⟩ := generate_solvable hw hh shuffle hshuf
  have hse : (SimpleGenerator.generate w h shuffle).start
      ≠ (SimpleGenerator.generate w h shuffle).endp := by
    rw [hstart, hend]
    intro hc
    rw [Prod.ext_iff] at hc
    obtain ⟨hc1, hc2⟩ := hc
    simp only at hc1 hc2
    have : w = 1 ∧ h = 1 := ⟨by omega, by omega⟩
    rw [this.1, this.2] at hwh
    omega
  have h2le : 2 ≤ w.toNat * h.toNat := by
    have e := toNat_mul_of_nonneg (by omega : (0 : Int) ≤ w) (by omega : (0 : Int) ≤ h)
    omega
  have hcard : ∀ V : Finset Pos, V = ∅ →
      (rect (SimpleGenerator.generate w h shuffle).width
        (SimpleGenerator.generate w h shuffle).height \ V).card
        ≤ (w.toNat * h.toNat - 1) + 1 := by
    intro V hV
    rw [hV, Finset.sdiff_empty, hwid, hhei, card_rect]
    omega
  have efuel : w.toNat * h.toNat = (w.toNat * h.toNat - 1) + 1 := by omega
  constructor
  · obtain ⟨gs, hne, heq, _, g, hg1, hg2⟩ := df_run hsolv (w.toNat * h.toNat - 1)
      DepthFirst.new (SimpleGenerator.generate w h shuffle).start []
      (dfInv_init hsolv hse) (hcard _ rfl)
    refine ⟨gs, hne, ?_, g, hg1, hg2⟩
    rw [Executor.run, efuel, heq, List.nil_append]
  · obtain ⟨gs, hne, heq, _, g, hg1, hg2⟩ := bf_run hsolv (w.toNat * h.toNat - 1)
      BreathFirst.new (SimpleGenerator.generate w h shuffle).start []
      (bfInv_init hsolv hse) (hcard _ rfl)
    refine ⟨gs, hne, ?_, g, hg1, hg2⟩
    rw [Executor.run, efuel, heq, List.nil_append]

theorem C2_executor_terminates_at_end_witness :
    ((1 : Int) ≤ 2 ∧ (1 : Int) ≤ 1 ∧ (2 : Int) ≤ 2 * 1 ∧
      (∀ (i : Nat) (l : List Pos), (idShuffle i l).Perm l)) ∧
    ((∃ gs : List (List Pos), gs ≠ [] ∧
      Executor.run DepthFirst.progress (SimpleGenerator.generate 2 1 idShuffle)
        DepthFirst.new ((2 : Int).toNat * (1 : Int).toNat) = .done gs ∧
      ∃ g, gs.getLast? = some g ∧
        g.getLast? = some (SimpleGenerator.generate 2 1 idShuffle).endp) ∧
    (∃ gs : List (List Pos), gs ≠ [] ∧
      Executor.run BreathFirst.progress (SimpleGenerator.generate 2 1 idShuffle)
        BreathFirst.new ((2 : Int).toNat * (1 : Int).toNat) = .done gs ∧
      ∃ g, gs.getLast? = some g ∧
        g.getLast? = some (SimpleGenerator.generate 2 1 idShuffle).endp)) :=
  ⟨⟨by decide, by decide, by decide, fun _ l => List.Perm.refl l⟩,
    C2_executor_terminates_at_end (by decide) (by decide) (by decide) idShuffle
      (fun _ l => List.Perm.refl l)⟩

end ClaimC2

section ClaimC4

/-- C4 (amended) — on any generated maze with at least two cells, for every step
budget: every guess the executor obtains from `DepthFirst::progress` is
non-empty, starts at the maze start and is a passage-connected path, while every
guess obtained from `BreathFirst::progress` is non-empty, is passage-connected
once the start is prepended, but does NOT begin at the start cell; in both
runs the proposed frontier cells (last elements) are pairwise distinct. -/
theorem C4_guess_shape_amended {w h : Int} (hw : 1 ≤ w) (hh : 1 ≤ h)
    (hwh : 2 ≤ w * h) (shuffle : Nat → List Pos → List Pos)
    (hshuf : ∀ (i : Nat) (l : List Pos), (shuffle i l).Perm l) (fuel : Nat) :
    (∀ g ∈ (Executor.run DepthFirst.progress (SimpleGenerator.generate w h shuffle)
        DepthFirst.new fuel).guesses,
      g ≠ [] ∧ g.head? = some (SimpleGenerator.generate w h shuffle).start ∧
      List.Chain' (fun a b => b ∈ adjL (SimpleGenerator.generate w h shuffle) a) g) ∧
    List.Pairwise (fun g1 g2 => g1.getLast? ≠ g2.getLast?)
      (Executor.run DepthFirst.progress (SimpleGenerator.generate w h shuffle)
        DepthFirst.new fuel).guesses ∧
    (∀ g ∈ (Executor.run BreathFirst.progress (SimpleGenerator.generate w h shuffle)
        BreathFirst.new fuel).guesses,
      g ≠ [] ∧ g.head? ≠ some (SimpleGenerator.generate w h shuffle).start ∧
      List.Chain' (fun a b => b ∈ adjL (SimpleGenerator.generate w h shuffle) a)
        ((SimpleGenerator.generate w h shuffle).start :: g)) ∧
    List.Pairwise (fun g1 g2 => g1.getLast? ≠ g2.getLast?)
      (Executor.run BreathFirst.progress (SimpleGenerator.generate w h shuffle)
        BreathFirst.new fuel).guesses := by
  obtain ⟨hsolv, hwid, hhei, hstart, hend⟩ := generate_solvable hw hh shuffle hshuf
  have hse : (SimpleGenerator.generate w h shuffle).start
      ≠ (SimpleGenerator.generate w h shuffle).endp := by
    rw [hstart, hend]
    intro hc
    rw [Prod.ext_iff] at hc
    obtain ⟨hc1, hc2⟩ := hc
    simp only at hc1 hc2
    have h2 : w = 1 ∧ h = 1 := ⟨by omega, by omega⟩
    rw [h2.1, h2.2] at hwh
    omega
  have hdf := df_trace hsolv fuel DepthFirst.new
    (SimpleGenerator.generate w h shuffle).start [] (dfInv_init hsolv hse)
    (by intro g hg; cases hg) (by intro g hg; cases hg) List.Pairwise.nil
  have hbf := bf_trace hsolv fuel BreathFirst.new
    (SimpleGenerator.generate w h shuffle).start [] (bfInv_init hsolv hse)
    (by intro g hg; cases hg) (by intro g hg; cases hg) List.Pairwise.nil
  rw [Executor.run, Executor.run]
  refine ⟨hdf.1, hdf.2, ?_, hbf.2⟩
  intro g hg
  obtain ⟨hne, hch⟩ := hbf.1 g hg
  exact ⟨hne, bfs_head_ne_start hsolv hne hch, hch⟩

theorem C4_guess_shape_amended_witness :
    ((1 : Int) ≤ 2 ∧ (1 : Int) ≤ 1 ∧ (2 : Int) ≤ 2 * 1 ∧
      (∀ (i : Nat) (l : List Pos), (idShuffle i l).Perm l)) ∧
    ((∀ g ∈ (Executor.run DepthFirst.progress (SimpleGenerator.generate 2 1 idShuffle)
        DepthFirst.new 2).guesses,
      g ≠ [] ∧ g.head? = some (SimpleGenerator.generate 2 1 idShuffle).start ∧
      List.Chain' (fun a b => b ∈ adjL (SimpleGenerator.generate 2 1 idShuffle) a) g) ∧
    List.Pairwise (fun g1 g2 => g1.getLast? ≠ g2.getLast?)
      (Executor.run DepthFirst.progress (SimpleGenerator.generate 2 1 idShuffle)
        DepthFirst.new 2).guesses ∧
    (∀ g ∈ (Executor.run BreathFirst.progress (SimpleGenerator.generate 2 1 idShuffle)
        BreathFirst.new 2).guesses,
      g ≠ [] ∧ g.head? ≠ some (SimpleGenerator.generate 2 1 idShuffle).start ∧
      List.Chain' (fun a b => b ∈ adjL (SimpleGenerator.generate 2 1 idShuffle) a)
        ((SimpleGenerator.generate 2 1 idShuffle).start :: g)) ∧
    List.Pairwise (fun g1 g2 => g1.getLast? ≠ g2.getLast?)
      (Executor.run BreathFirst.progress (SimpleGenerator.generate 2 1 idShuffle)
        BreathFirst.new 2).guesses) :=
  ⟨⟨by decide, by decide, by decide, fun _ l => List.Perm.refl l⟩,
    C4_guess_shape_amended (by decide) (by decide) (by decide) idShuffle
      (fun _ l => List.Perm.refl l) 2⟩

end ClaimC4
